import Mathlib

set_option maxRecDepth 10000

/-!
Shallow embedding of the `dbquery` query-execution pipeline.

Go strings are modelled as `List Char`.  Each definition mirrors one Go
function of the repository (the SQL safety guard, the table filter, the
query executor with its value normalization, the schema introspectors and
the result renderer).  Go's regexp matches are modelled by explicit
scanning functions with RE2's ASCII word-character and white-space
classes; Go's `strings.ToLower` is modelled by the ASCII case mapping
(the SQL keywords the guard inspects are all ASCII).
-/

namespace DBQuery

/-- White-space test of Go's `unicode.IsSpace` (the set used by
`strings.TrimSpace`). -/
def goIsSpace (c : Char) : Bool :=
  c = ' ' || c = '\t' || c = '\n' || c = '\x0b' || c = '\x0c' || c = '\r' ||
  c.toNat = 0x85 || c.toNat = 0xA0 || c.toNat = 0x1680 ||
  (0x2000 ≤ c.toNat && c.toNat ≤ 0x200A) ||
  c.toNat = 0x2028 || c.toNat = 0x2029 || c.toNat = 0x202F ||
  c.toNat = 0x205F || c.toNat = 0x3000

/-- White-space class of Go's regexp `\s`, which is `[\t\n\f\r ]`. -/
def reIsSpace (c : Char) : Bool :=
  c = '\t' || c = '\n' || c = '\x0c' || c = '\r' || c = ' '

/-- Word-character class of Go's regexp `\w` / `\b`: `[0-9A-Za-z_]`. -/
def isWordChar (c : Char) : Bool :=
  ('a' ≤ c && c ≤ 'z') || ('A' ≤ c && c ≤ 'Z') || ('0' ≤ c && c ≤ '9') || c = '_'

/-- Model of `strings.TrimLeft` over the `unicode.IsSpace` cutset. -/
def goTrimLeft (s : List Char) : List Char := s.dropWhile goIsSpace

/-- Model of `strings.TrimRight` over the `unicode.IsSpace` cutset. -/
def goTrimRight (s : List Char) : List Char :=
  (s.reverse.dropWhile goIsSpace).reverse

/-- Model of `strings.TrimSpace`. -/
def goTrimSpace (s : List Char) : List Char := goTrimLeft (goTrimRight s)

/-- Model of `strings.ToLower` (ASCII case mapping; the guard only
inspects ASCII keywords). -/
def goToLower (s : List Char) : List Char := s.map Char.toLower

/-- Model of `s[strings.Index(s, "\n")+1:]`: drop everything through the
first newline, `none` when no newline occurs (Go's `Index` returns -1 and
`stripLeadingComments` returns `""`). -/
def dropThroughNewline : List Char → Option (List Char)
  | [] => none
  | c :: rest => if c = '\n' then some rest else dropThroughNewline rest

/-- Model of `s[strings.Index(s, "*/")+2:]`: drop everything through the
first occurrence of `*/`, `none` when it does not occur. -/
def dropThroughBlockEnd : List Char → Option (List Char)
  | [] => none
  | c :: rest =>
    if c = '*' ∧ rest.head? = some '/' then some rest.tail
    else dropThroughBlockEnd rest

/-- One fuelled pass of the `stripLeadingComments` loop.  The loop body
trims white space and removes one leading `--` line comment or one
leading `/* ... */` block comment per iteration; an unterminated comment
yields the empty string.  Every iteration strictly shortens the text, so
`length + 1` fuel is always sufficient. -/
def stripGo : Nat → List Char → List Char
  | 0, s => goTrimSpace s
  | fuel + 1, s =>
    let t := goTrimSpace s
    if ['-', '-'].isPrefixOf t then
      match dropThroughNewline t with
      | none => []
      | some rest => stripGo fuel rest
    else if ['/', '*'].isPrefixOf t then
      match dropThroughBlockEnd t with
      | none => []
      | some rest => stripGo fuel rest
    else t

/-- Model of `stripLeadingComments` from the SQL safety guard. -/
def stripLeadingComments (sqlText : List Char) : List Char :=
  stripGo (sqlText.length + 1) sqlText

/-- A `\b` word boundary holds before a word character when the previous
character (if any) is not a word character. -/
def boundaryOK : Option Char → Bool
  | none => true
  | some c => !isWordChar c

/-- Case-insensitive prefix test: the first argument is an (already
lower-case) pattern, compared against the text with Go's `(?i)` flag. -/
def ciPrefix : List Char → List Char → Bool
  | [], _ => true
  | _ :: _, [] => false
  | a :: as, b :: bs => (Char.toLower b = a) && ciPrefix as bs

/-- Whether the word `w` matches at the head of `s` with a word boundary
after it (the boundary before it is checked by the scanner). -/
def wordMatchHere (w s : List Char) : Bool :=
  ciPrefix w s &&
    (match s.drop w.length with
     | [] => true
     | c :: _ => !isWordChar c)

/-- Scanner for `(?i)\bw\b`: tries every position, tracking the previous
character for the leading word boundary. -/
def scanWord (w : List Char) : Option Char → List Char → Bool
  | _, [] => false
  | prev, c :: rest =>
    (boundaryOK prev && wordMatchHere w (c :: rest)) || scanWord w (some c) rest

/-- Whether `(?i)\bw\b` matches anywhere in `s`. -/
def containsWordCI (w s : List Char) : Bool := scanWord w none s

/-- The alternatives of `forbiddenWritePattern`:
`(?i)\b(insert|update|delete|drop|alter|truncate|create|grant|revoke|merge|call|replace)\b`. -/
def forbiddenWords : List (List Char) :=
  ["insert".data, "update".data, "delete".data, "drop".data, "alter".data,
   "truncate".data, "create".data, "grant".data, "revoke".data,
   "merge".data, "call".data, "replace".data]

/-- Whether `forbiddenWritePattern` matches `s`. -/
def containsForbiddenWrite (s : List Char) : Bool :=
  forbiddenWords.any (fun w => containsWordCI w s)

/-- The literal word of `hasLimitPattern`. -/
def limitWord : List Char := ['l', 'i', 'm', 'i', 't']

/-- After the word `limit`: `\s+\d+`, i.e. at least one regexp white-space
character followed by a digit. -/
def spaceThenDigit : List Char → Bool
  | [] => false
  | c :: rest =>
    reIsSpace c &&
      (match rest.dropWhile reIsSpace with
       | [] => false
       | d :: _ => d.isDigit)

/-- Whether `(?i)\blimit\s+\d+` matches at the head of `s` (leading
boundary checked by the scanner). -/
def limitTokenHere (s : List Char) : Bool :=
  ciPrefix limitWord s && spaceThenDigit (s.drop 5)

/-- Scanner for `hasLimitPattern`. -/
def scanLimit : Option Char → List Char → Bool
  | _, [] => false
  | prev, c :: rest =>
    (boundaryOK prev && limitTokenHere (c :: rest)) || scanLimit (some c) rest

/-- Whether `hasLimitPattern`, `(?i)\blimit\s+\d+`, matches anywhere. -/
def containsLimitToken (s : List Char) : Bool := scanLimit none s

/-- The text both guard functions inspect: the comment-stripped input,
trimmed and lower-cased. -/
def lowerCleaned (query : List Char) : List Char :=
  goToLower (goTrimSpace (stripLeadingComments query))

/-- Model of `ensureReadOnlySQL`. -/
def ensureReadOnlySQL (query : List Char) : Except (List Char) Unit :=
  let lower := lowerCleaned query
  if !("select".data.isPrefixOf lower || "with".data.isPrefixOf lower ||
        "explain select".data.isPrefixOf lower) then
    .error "generated SQL is not read-only; use --allow-write to permit non-SELECT statements".data
  else if containsForbiddenWrite lower then
    .error "generated SQL contains write/DDL keywords; use --allow-write if intentional".data
  else
    .ok ()

/-- Decimal digits of a natural number (fuelled; `n + 1` fuel always
suffices). -/
def natToDigitsAux : Nat → Nat → List Char → List Char
  | 0, _, acc => acc
  | fuel + 1, n, acc =>
    let d := Char.ofNat (48 + n % 10)
    if n < 10 then d :: acc else natToDigitsAux fuel (n / 10) (d :: acc)

/-- Decimal digits of a natural number. -/
def natToDigits (n : Nat) : List Char := natToDigitsAux (n + 1) n []

/-- Model of `fmt.Sprintf("%d", i)` for a Go `int`. -/
def goFormatInt (i : Int) : List Char :=
  if i < 0 then '-' :: natToDigits (-i).toNat else natToDigits i.toNat

/-- Model of `strings.TrimSuffix(s, ";")`. -/
def goTrimSuffixSemi (s : List Char) : List Char :=
  if s.getLast? = some ';' then s.dropLast else s

/-- Model of `ensureLimit`. -/
def ensureLimit (query : List Char) (limit : Int) : List Char :=
  if limit ≤ 0 then query
  else
    let lower := lowerCleaned query
    if !("select".data.isPrefixOf lower || "with".data.isPrefixOf lower) then query
    else if containsLimitToken lower then query
    else goTrimSuffixSemi (goTrimSpace query) ++ " LIMIT ".data ++ goFormatInt limit ++ [';']

instance {ε α : Type} [DecidableEq ε] [DecidableEq α] : DecidableEq (Except ε α) := by
  intro x y
  cases x <;> cases y
  case error.error a b =>
    exact if h : a = b then .isTrue (by rw [h]) else .isFalse (by simpa using h)
  case error.ok a b => exact .isFalse (by simp)
  case ok.error a b => exact .isFalse (by simp)
  case ok.ok a b =>
    exact if h : a = b then .isTrue (by rw [h]) else .isFalse (by simpa using h)

/-- Model of `strings.Split(s, ".")`. -/
def splitOnDot : List Char → List (List Char)
  | [] => [[]]
  | c :: rest =>
    if c = '.' then [] :: splitOnDot rest
    else
      match splitOnDot rest with
      | [] => [[c]]
      | h :: t => (c :: h) :: t

/-- Model of `makeTableFilter`: the user scope list, lower-cased and
trimmed, empty tokens dropped; an (effectively) empty scope yields the
nil filter.  The Go set is modelled as a list queried by membership. -/
def makeTableFilter (tableScope : List (List Char)) : List (List Char) :=
  if tableScope.isEmpty then []
  else
    let filter := (tableScope.map fun t => goToLower (goTrimSpace t)).filter (fun t => !t.isEmpty)
    if filter.isEmpty then [] else filter

/-- Model of `allowTableName`. -/
def allowTableName (name : List Char) (filter : List (List Char)) : Bool :=
  if filter.isEmpty then true
  else
    let n := goToLower (goTrimSpace name)
    if n ∈ filter then true
    else
      let parts := splitOnDot n
      if parts.length > 1 then
        if parts.getLastD [] ∈ filter then true else false
      else false

/-- The ten decimal digit characters. -/
def digitChars : List Char := ['0', '1', '2', '3', '4', '5', '6', '7', '8', '9']

/-- A 64-bit float value: finite values are carried as the exact rational
the parsed decimal denotes (the embedding abstracts IEEE rounding of
in-range values; out-of-range parses are rejected exactly as
`strconv.ParseFloat` reports `ErrRange`). -/
inductive GoFloat where
  | finite (q : ℚ)
  | posInf
  | negInf
  | nan
deriving DecidableEq

/-- A driver timestamp (`time.Time`): calendar fields plus the zone
offset in minutes and the zone abbreviation. -/
structure GoTime where
  year : Int
  month : Nat
  day : Nat
  hour : Nat
  minute : Nat
  second : Nat
  nanosecond : Nat
  tzOffsetMinutes : Int
  tzName : List Char
deriving DecidableEq

/-- Left-pad a digit string with zeros to width `w`. -/
def padLeftZeros (w : Nat) (ds : List Char) : List Char :=
  List.replicate (w - ds.length) '0' ++ ds

/-- Two-digit zero-padded field. -/
def pad2 (n : Nat) : List Char := padLeftZeros 2 (natToDigits n)

/-- Four-digit zero-padded year with sign. -/
def pad4Year (i : Int) : List Char :=
  if i < 0 then '-' :: padLeftZeros 4 (natToDigits (-i).toNat)
  else padLeftZeros 4 (natToDigits i.toNat)

/-- The fractional-second part of the `.999999999` layout: omitted when
zero, otherwise a dot followed by the nanoseconds with trailing zeros
removed. -/
def fracNanos (n : Nat) : List Char :=
  if n = 0 then []
  else '.' :: ((padLeftZeros 9 (natToDigits n)).reverse.dropWhile (· = '0')).reverse

/-- The `Z07:00` zone layout: `Z` for UTC, otherwise `±hh:mm`. -/
def zoneRFC3339 (offMinutes : Int) : List Char :=
  if offMinutes = 0 then ['Z']
  else
    (if offMinutes < 0 then '-' else '+') ::
      (pad2 (offMinutes.natAbs / 60) ++ ':' :: pad2 (offMinutes.natAbs % 60))

/-- Model of `t.Format(time.RFC3339Nano)`,
layout `2006-01-02T15:04:05.999999999Z07:00`. -/
def formatRFC3339Nano (t : GoTime) : List Char :=
  pad4Year t.year ++ '-' :: pad2 t.month ++ '-' :: pad2 t.day ++
    'T' :: pad2 t.hour ++ ':' :: pad2 t.minute ++ ':' :: pad2 t.second ++
    fracNanos t.nanosecond ++ zoneRFC3339 t.tzOffsetMinutes

/-- Model of the default `%v` rendering of `time.Time`,
layout `2006-01-02 15:04:05.999999999 -0700 MST`. -/
def formatTimeDefault (t : GoTime) : List Char :=
  pad4Year t.year ++ '-' :: pad2 t.month ++ '-' :: pad2 t.day ++
    ' ' :: pad2 t.hour ++ ':' :: pad2 t.minute ++ ':' :: pad2 t.second ++
    fracNanos t.nanosecond ++
    ' ' :: (if t.tzOffsetMinutes < 0 then '-' else '+') ::
      (pad2 (t.tzOffsetMinutes.natAbs / 60) ++ pad2 (t.tzOffsetMinutes.natAbs % 60)) ++
    ' ' :: t.tzName

/-- A driver value (`any`): `nil`, a timestamp, a raw byte buffer, or an
already-typed scalar. -/
inductive GoVal where
  | vnull
  | vtime (t : GoTime)
  | vbytes (s : List Char)
  | vint (i : Int)
  | vfloat (f : GoFloat)
  | vbool (b : Bool)
  | vstr (s : List Char)
deriving DecidableEq

/-- Accumulate decimal digits; fails on a non-digit. -/
def parseDecDigitsAux (acc : Nat) : List Char → Option Nat
  | [] => some acc
  | c :: rest =>
    if c.isDigit then parseDecDigitsAux (acc * 10 + (c.toNat - 48)) rest else none

/-- One or more decimal digits. -/
def parseDecDigits : List Char → Option Nat
  | [] => none
  | s => parseDecDigitsAux 0 s

/-- Model of `strconv.ParseInt(s, 10, 64)`: optional sign, one or more
decimal digits, value within the signed 64-bit range. -/
def goParseInt64 (s : List Char) : Option Int :=
  let sr : Bool × List Char :=
    match s with
    | '+' :: r => (false, r)
    | '-' :: r => (true, r)
    | r => (false, r)
  match parseDecDigits sr.2 with
  | none => none
  | some m =>
    let v : Int := if sr.1 then -(m : Int) else (m : Int)
    if -(2 ^ 63) ≤ v ∧ v ≤ 2 ^ 63 - 1 then some v else none

/-- Model of `strconv.ParseBool`: exactly the twelve accepted literals. -/
def goParseBool (s : List Char) : Option Bool :=
  if s = "1".data ∨ s = "t".data ∨ s = "T".data ∨ s = "true".data ∨
      s = "TRUE".data ∨ s = "True".data then some true
  else if s = "0".data ∨ s = "f".data ∨ s = "F".data ∨ s = "false".data ∨
      s = "FALSE".data ∨ s = "False".data then some false
  else none

/-- Hexadecimal digit test. -/
def isHexDigit (c : Char) : Bool :=
  c.isDigit || ('a' ≤ Char.toLower c && Char.toLower c ≤ 'f')

/-- Digit value in a given base (decimal or hexadecimal). -/
def hexDigitVal (c : Char) : Nat :=
  if c.isDigit then c.toNat - 48 else (Char.toLower c).toNat - 87

/-- Fold a digit string into a natural number for base `b`. -/
def digitsToNat (b : Nat) (ds : List Char) : Nat :=
  ds.foldl (fun a c => a * b + hexDigitVal c) 0

/-- No two consecutive underscores. -/
def noDoubleUnderscore : List Char → Bool
  | [] => true
  | c :: rest =>
    if c = '_' ∧ rest.head? = some '_' then false else noDoubleUnderscore rest

/-- Split off the maximal run of digits-or-underscores. -/
def splitGroup (isD : Char → Bool) (s : List Char) : List Char × List Char :=
  (s.takeWhile (fun c => isD c || c = '_'), s.dropWhile (fun c => isD c || c = '_'))

/-- Go's underscore rule inside a digit group: no leading, trailing or
doubled underscore. -/
def groupOK (g : List Char) : Bool :=
  g.head? ≠ some '_' && g.getLast? ≠ some '_' && noDoubleUnderscore g

/-- Remove the underscore separators. -/
def stripU (g : List Char) : List Char := g.filter (fun c => c ≠ '_')

/-- A full exponent field: optional sign and one or more (underscored)
decimal digits, consuming the whole rest. -/
def parseExp (r : List Char) : Option Int :=
  let sr : Bool × List Char :=
    match r with
    | '+' :: t => (false, t)
    | '-' :: t => (true, t)
    | t => (false, t)
  let p := splitGroup Char.isDigit sr.2
  if p.2 ≠ [] then none
  else if !groupOK p.1 then none
  else
    let ds := stripU p.1
    if ds = [] then none
    else some (if sr.1 then -(digitsToNat 10 ds : Int) else (digitsToNat 10 ds : Int))

/-- Apply the double-precision range rule to the exact value
`±mant * base^scale` and build the normalized rational.  `ParseFloat`
reports `ErrRange` (so the normalizer falls through) when the value
rounds to `±Inf` (at or above `(2^54-1)*2^970`) or to zero
(a non-zero value at or below `2^-1075`). -/
def floatFromParts (neg : Bool) (mant : Nat) (base : Nat) (scale : Int) :
    Option GoFloat :=
  let num : Nat := if 0 ≤ scale then mant * base ^ scale.toNat else mant
  let den : Nat := if 0 ≤ scale then 1 else base ^ (-scale).toNat
  if mant = 0 then some (.finite 0)
  else if (2 ^ 54 - 1) * 2 ^ 970 * den ≤ num then none
  else if num * 2 ^ 1075 ≤ den then none
  else some (.finite (Rat.divInt (if neg then -(num : Int) else (num : Int)) (den : Int)))

/-- A decimal mantissa with optional fraction and optional `e` exponent. -/
def parseDecFloat (neg : Bool) (r : List Char) : Option GoFloat :=
  let p1 := splitGroup Char.isDigit r
  if !groupOK p1.1 then none
  else
    let p2 : List Char × List Char :=
      if p1.2.head? = some '.' then splitGroup Char.isDigit p1.2.tail
      else ([], p1.2)
    let r3 : List Char := if p1.2.head? = some '.' then p2.2 else p1.2
    if !groupOK p2.1 then none
    else
      let d1 := stripU p1.1
      let d2 := stripU p2.1
      if d1 = [] ∧ d2 = [] then none
      else
        let mant := digitsToNat 10 (d1 ++ d2)
        match r3 with
        | [] => floatFromParts neg mant 10 (-(d2.length : Int))
        | e :: r4 =>
          if e = 'e' ∨ e = 'E' then
            match parseExp r4 with
            | none => none
            | some ex => floatFromParts neg mant 10 (ex - (d2.length : Int))
          else none

/-- A hexadecimal mantissa with optional fraction and mandatory `p`
exponent (an underscore directly after the base prefix is allowed). -/
def parseHexFloat (neg : Bool) (r : List Char) : Option GoFloat :=
  let r0 : List Char :=
    match r with
    | '_' :: c :: t => if isHexDigit c then c :: t else r
    | _ => r
  let p1 := splitGroup isHexDigit r0
  if !groupOK p1.1 then none
  else
    let p2 : List Char × List Char :=
      if p1.2.head? = some '.' then splitGroup isHexDigit p1.2.tail
      else ([], p1.2)
    let r3 : List Char := if p1.2.head? = some '.' then p2.2 else p1.2
    if !groupOK p2.1 then none
    else
      let d1 := stripU p1.1
      let d2 := stripU p2.1
      if d1 = [] ∧ d2 = [] then none
      else
        let mant := digitsToNat 16 (d1 ++ d2)
        match r3 with
        | p :: r4 =>
          if p = 'p' ∨ p = 'P' then
            match parseExp r4 with
            | none => none
            | some ex => floatFromParts neg mant 2 (ex - 4 * (d2.length : Int))
          else none
        | [] => none

/-- Model of `strconv.ParseFloat(s, 64)`: signed specials (`Inf`,
`Infinity`, unsigned `NaN`, case-insensitive), otherwise a signed decimal
or hexadecimal Go float literal subject to the double range rule. -/
def goParseFloat (s : List Char) : Option GoFloat :=
  if s = [] then none
  else
    let lower := goToLower s
    if lower = "nan".data then some .nan
    else if lower = "inf".data ∨ lower = "infinity".data ∨
        lower = "+inf".data ∨ lower = "+infinity".data then some .posInf
    else if lower = "-inf".data ∨ lower = "-infinity".data then some .negInf
    else
      let sr : Bool × List Char :=
        match s with
        | '+' :: r => (false, r)
        | '-' :: r => (true, r)
        | r => (false, r)
      match sr.2 with
      | '0' :: x :: r2 =>
        if x = 'x' ∨ x = 'X' then parseHexFloat sr.1 r2
        else parseDecFloat sr.1 sr.2
      | _ => parseDecFloat sr.1 sr.2

/-- Model of `normalizeDBValue`: `nil` stays `nil`, timestamps become
their RFC-3339 nanosecond string, byte buffers are parsed as int64, then
float64, then bool, falling back to the string; typed values pass
through. -/
def normalizeDBValue (v : GoVal) : GoVal :=
  match v with
  | .vnull => .vnull
  | .vtime t => .vstr (formatRFC3339Nano t)
  | .vbytes s =>
    match goParseInt64 s with
    | some i => .vint i
    | none =>
      match goParseFloat s with
      | some f => .vfloat f
      | none =>
        match goParseBool s with
        | some b => .vbool b
        | none => .vstr s
  | v => v

/-- An error value; only its identity matters to the model. -/
abbrev GoErr := List Char

/-- One `sql.Rows` stream: the result of `rows.Columns()`, the scan
outcome of each successive row (`rows.Next` / `rows.Scan`), and the final
`rows.Err()` value. -/
structure RowsData where
  columnsRes : Except GoErr (List (List Char))
  entries : List (Except GoErr (List GoVal))
  finalErr : Option GoErr

/-- Model of `row[col] = v` on a Go map represented as an insertion-order
association list: overwrite an existing key, else append. -/
def setKey (m : List (List Char × GoVal)) (k : List Char) (v : GoVal) :
    List (List Char × GoVal) :=
  if m.any (fun p => p.1 = k) then m.map (fun p => if p.1 = k then (k, v) else p)
  else m ++ [(k, v)]

/-- Build one result row: for each column index, normalize the scanned
cell (`values[i]`, `nil` when unset) and store it under the column name. -/
def mkRow (cols : List (List Char)) (vals : List GoVal) :
    List (List Char × GoVal) :=
  cols.enum.foldl
    (fun m ci => setKey m ci.2 (normalizeDBValue (vals.getD ci.1 .vnull))) []

/-- The scan loop of `executeQuery`: stop at the first failing scan. -/
def scanRows (cols : List (List Char)) :
    List (Except GoErr (List GoVal)) →
      Except GoErr (List (List (List Char × GoVal)))
  | [] => .ok []
  | .error e :: _ => .error e
  | .ok vals :: rest =>
    match scanRows cols rest with
    | .error e => .error e
    | .ok rs => .ok (mkRow cols vals :: rs)

/-- Model of `executeQuery`: the Go function returns
`(nil, nil, err)` on any failure (query error, `Columns()` error, scan
error, or final `rows.Err()`), and `(columns, rows, nil)` on success. -/
def executeQuery (qres : Except GoErr RowsData) :
    Option (List (List Char)) × Option (List (List (List Char × GoVal))) ×
      Option GoErr :=
  match qres with
  | .error e => (none, none, some e)
  | .ok rd =>
    match rd.columnsRes with
    | .error e => (none, none, some e)
    | .ok cols =>
      match scanRows cols rd.entries with
      | .error e => (none, none, some e)
      | .ok rows =>
        match rd.finalErr with
        | some e => (none, none, some e)
        | none => (some cols, some rows, none)

instance : DecidableEq (List (List Char × GoVal)) := inferInstance

instance : DecidableEq (List (List (List Char × GoVal))) := inferInstance

instance : DecidableEq (Option (List (List (List Char × GoVal)))) := inferInstance

/-- First-occurrence deduplication of the column list: the key list a Go
map built by inserting in column order ends up with. -/
def dedupKeys (cols : List (List Char)) : List (List Char) :=
  cols.foldl (fun ks c => if c ∈ ks then ks else ks ++ [c]) []

/-- A stream whose second row fails to scan. -/
def sampleErrRows : RowsData where
  columnsRes := .ok ["c".data]
  entries := [.ok [.vint 1], .error "boom".data]
  finalErr := none

/-- A stream with two successful rows. -/
def sampleOkRows : RowsData where
  columnsRes := .ok ["id".data]
  entries := [.ok [.vint 1], .ok [.vint 2]]
  finalErr := none

/-- One discovered table: its (dialect-qualified) name and its column
descriptor strings. -/
structure tableDef where
  Name : List Char
  Columns : List (List Char)
deriving DecidableEq

/-- Column descriptors of the sqlite probe: `"name type"` trimmed, the
type empty when `ColumnTypes` is shorter than `Columns`. -/
def mkSQLiteColumns (colNames colTypes : List (List Char)) : List (List Char) :=
  colNames.enum.map fun ni =>
    goTrimSpace (ni.2 ++ ' ' :: (if ni.1 < colTypes.length then colTypes.getD ni.1 [] else []))

/-- Column descriptors from `(column_name, data_type)` catalog rows. -/
def mkColumnsFromPairs (pairs : List (List Char × List Char)) : List (List Char) :=
  pairs.map fun p => goTrimSpace (p.1 ++ ' ' :: p.2)

/-- The sqlite probe loop over the already-filtered table names: issue
the `LIMIT 0` probe (`lookup`), append the descriptor, and break once
`len(out) >= maxTables`.  Returns the list of probed tables together with
the result. -/
def introspectSQLiteLoop
    (lookup : List Char → Except GoErr (List (List Char) × List (List Char)))
    (maxTables : Int) :
    List (List Char) → List tableDef → List (List Char) × Except GoErr (List tableDef)
  | [], acc => ([], .ok acc)
  | nm :: rest, acc =>
    match lookup nm with
    | .error e => ([nm], .error e)
    | .ok cols =>
      let acc' := acc ++ [⟨nm, mkSQLiteColumns cols.1 cols.2⟩]
      if maxTables ≤ (acc'.length : Int) then ([nm], .ok acc')
      else
        let r := introspectSQLiteLoop lookup maxTables rest acc'
        (nm :: r.1, r.2)

/-- Model of `introspectSQLite`: the catalog enumeration is filtered
first, then each retained table is probed in order. -/
def introspectSQLite (catalog filter : List (List Char)) (maxTables : Int)
    (lookup : List Char → Except GoErr (List (List Char) × List (List Char))) :
    List (List Char) × Except GoErr (List tableDef) :=
  introspectSQLiteLoop lookup maxTables
    (catalog.filter fun nm => allowTableName nm filter) []

/-- The postgres loop over `(schema, table)` pairs: filter on the
qualified name, look up the columns, append, break at `maxTables`. -/
def introspectPostgresLoop
    (lookup : List Char × List Char → Except GoErr (List (List Char × List Char)))
    (filter : List (List Char)) (maxTables : Int) :
    List (List Char × List Char) → List tableDef →
      List (List Char) × Except GoErr (List tableDef)
  | [], acc => ([], .ok acc)
  | st :: rest, acc =>
    if !allowTableName (st.1 ++ '.' :: st.2) filter then
      introspectPostgresLoop lookup filter maxTables rest acc
    else
      match lookup st with
      | .error e => ([st.1 ++ '.' :: st.2], .error e)
      | .ok pairs =>
        let acc' := acc ++ [⟨st.1 ++ '.' :: st.2, mkColumnsFromPairs pairs⟩]
        if maxTables ≤ (acc'.length : Int) then ([st.1 ++ '.' :: st.2], .ok acc')
        else
          let r := introspectPostgresLoop lookup filter maxTables rest acc'
          ((st.1 ++ '.' :: st.2) :: r.1, r.2)

/-- Model of `introspectPostgres`. -/
def introspectPostgres (catalog : List (List Char × List Char))
    (filter : List (List Char)) (maxTables : Int)
    (lookup : List Char × List Char → Except GoErr (List (List Char × List Char))) :
    List (List Char) × Except GoErr (List tableDef) :=
  introspectPostgresLoop lookup filter maxTables catalog []

/-- The mysql loop over table names of the current database. -/
def introspectMySQLLoop
    (lookup : List Char → Except GoErr (List (List Char × List Char)))
    (filter : List (List Char)) (maxTables : Int) :
    List (List Char) → List tableDef → List (List Char) × Except GoErr (List tableDef)
  | [], acc => ([], .ok acc)
  | nm :: rest, acc =>
    if !allowTableName nm filter then
      introspectMySQLLoop lookup filter maxTables rest acc
    else
      match lookup nm with
      | .error e => ([nm], .error e)
      | .ok pairs =>
        let acc' := acc ++ [⟨nm, mkColumnsFromPairs pairs⟩]
        if maxTables ≤ (acc'.length : Int) then ([nm], .ok acc')
        else
          let r := introspectMySQLLoop lookup filter maxTables rest acc'
          (nm :: r.1, r.2)

/-- Model of `introspectMySQL`. -/
def introspectMySQL (catalog filter : List (List Char)) (maxTables : Int)
    (lookup : List Char → Except GoErr (List (List Char × List Char))) :
    List (List Char) × Except GoErr (List tableDef) :=
  introspectMySQLLoop lookup filter maxTables catalog []

/-- `%v` of a Go bool. -/
def goFormatBool (b : Bool) : List Char := if b then "true".data else "false".data

/-- `%v` of a Go float64.  Specials print as Go does; the shortest-decimal
rendering of finite doubles is abstracted as an exact `num/den` rendering
(no claim inspects this text). -/
def goFormatFloat : GoFloat → List Char
  | .posInf => "+Inf".data
  | .negInf => "-Inf".data
  | .nan => "NaN".data
  | .finite q =>
    if q.den = 1 then goFormatInt q.num
    else goFormatInt q.num ++ '/' :: natToDigits q.den

/-- Join pieces with single spaces. -/
def joinSpaces : List (List Char) → List Char
  | [] => []
  | x :: rest =>
    match rest with
    | [] => x
    | _ :: _ => x ++ ' ' :: joinSpaces rest

/-- `%v` of a Go `[]byte`: the bracketed decimal byte values. -/
def goFormatBytes (s : List Char) : List Char :=
  '[' :: joinSpaces (s.map fun c => natToDigits c.toNat) ++ [']']

/-- Model of `fmt.Sprintf("%v", v)` over the normalized value domain. -/
def goFormatValue : GoVal → List Char
  | .vnull => "<nil>".data
  | .vtime t => formatTimeDefault t
  | .vbytes s => goFormatBytes s
  | .vint i => goFormatInt i
  | .vfloat f => goFormatFloat f
  | .vbool b => goFormatBool b
  | .vstr s => s

/-- Replace every newline and carriage return with a single space
(`strings.ReplaceAll` twice, character-wise). -/
def replaceNLCR (s : List Char) : List Char :=
  s.map fun c => if c = '\n' then ' ' else if c = '\r' then ' ' else c

/-- Model of `formatCellValue`: `nil` renders as `NULL`, anything else as
its `%v` form with newlines and carriage returns flattened (the empty
string stays empty). -/
def formatCellValue (v : GoVal) : List Char :=
  match v with
  | .vnull => "NULL".data
  | v =>
    let str := replaceNLCR (goFormatValue v)
    if str = [] then [] else str

/-- Go map indexing `row[col]`: the stored value, or `nil` when the key
is absent. -/
def lookupCell (row : List (List Char × GoVal)) (c : List Char) : GoVal :=
  match row.find? (fun p => p.1 = c) with
  | some p => p.2
  | none => .vnull

/-- One rendered table line: each column's cell formatted. -/
def cellLine (cols : List (List Char)) (row : List (List Char × GoVal)) :
    List (List Char) :=
  cols.map fun c => formatCellValue (lookupCell row c)

/-- The row loop of `renderTable`: collect the string rows and widen each
column to the largest rendered cell, starting from the header widths. -/
def rowsAndWidths (cols : List (List Char))
    (rows : List (List (List Char × GoVal))) :
    List (List (List Char)) × List Nat :=
  rows.foldl
    (fun acc row =>
      (acc.1 ++ [cellLine cols row],
        List.zipWith max acc.2 ((cellLine cols row).map List.length)))
    ([], cols.map List.length)

/-- Model of `buildHorizontalLine`. -/
def buildHorizontalLine (widths : List Nat) : List Char :=
  '+' :: (widths.map fun w => List.replicate (w + 2) '-' ++ ['+']).flatten

/-- Model of `buildTableRow`. -/
def buildTableRow (values : List (List Char)) (widths : List Nat) : List Char :=
  '|' :: (List.zipWith
    (fun v w => ' ' :: v ++ List.replicate (w - v.length) ' ' ++ [' ', '|'])
    values widths).flatten

/-- The step function of the `renderTable` row loop. -/
def widthsFoldF (cols : List (List Char)) :
    List (List (List Char)) × List Nat → List (List Char × GoVal) →
      List (List (List Char)) × List Nat :=
  fun acc row =>
    (acc.1 ++ [cellLine cols row],
      List.zipWith max acc.2 ((cellLine cols row).map List.length))

/-- Model of `renderTable`. -/
def renderTable (columns : List (List Char))
    (rows : List (List (List Char × GoVal))) : List Char :=
  if columns.length = 0 then "No rows returned.".data
  else
    let sw := rowsAndWidths columns rows
    let hline := buildHorizontalLine sw.2
    hline ++ '\n' :: buildTableRow columns sw.2 ++ '\n' :: hline ++ '\n' ::
      (sw.1.map fun line => buildTableRow line sw.2 ++ ['\n']).flatten ++
      hline ++ (if rows.length = 0 then "\n(0 rows)".data else [])

/-- The tail `ensureLimit` appends after the separating space:
`LIMIT <digits>;`. -/
def limitCore (D : List Char) : List Char :=
  'L' :: 'I' :: 'M' :: 'I' :: 'T' :: ' ' :: (D ++ [';'])

/-! ### Theorems -/

theorem ensureReadOnly_ok_iff (q : List Char) :
    ensureReadOnlySQL q = .ok () ↔
      (("select".data.isPrefixOf (lowerCleaned q) = true ∨
        "with".data.isPrefixOf (lowerCleaned q) = true ∨
        "explain select".data.isPrefixOf (lowerCleaned q) = true) ∧
       containsForbiddenWrite (lowerCleaned q) = false) := by
  cases h1 : "select".data.isPrefixOf (lowerCleaned q) <;>
  cases h2 : "with".data.isPrefixOf (lowerCleaned q) <;>
  cases h3 : "explain select".data.isPrefixOf (lowerCleaned q) <;>
  cases h4 : containsForbiddenWrite (lowerCleaned q) <;>
    simp only [ensureReadOnlySQL, h1, h2, h3, h4, Bool.or_false, Bool.or_true,
      Bool.false_or, Bool.true_or, Bool.not_true, Bool.not_false, if_true, if_false,
      Bool.false_eq_true, Bool.true_eq_false] <;>
    simp

/-- Claim C1: `ensureReadOnlySQL` succeeds exactly when the
comment-stripped, trimmed, lower-cased remainder starts with `select`,
`with` or `explain select`, and that lower-cased statement contains none
of the forbidden write/DDL tokens as whole words; text beginning with any
other keyword is rejected. -/
theorem c1_ensureReadOnly_exact (q : List Char) :
    ensureReadOnlySQL q = .ok () ↔
      (("select".data.isPrefixOf (lowerCleaned q) = true ∨
        "with".data.isPrefixOf (lowerCleaned q) = true ∨
        "explain select".data.isPrefixOf (lowerCleaned q) = true) ∧
       containsForbiddenWrite (lowerCleaned q) = false) :=
  ensureReadOnly_ok_iff q

/-- Claim C10: the forbidden-keyword scan runs on the comment-stripped
text, so a query whose forbidden words sit only inside leading comments
is accepted as long as the remaining statement starts with an allowed
keyword and itself has no forbidden whole-word token. -/
theorem c10_scan_on_stripped_text (q : List Char)
    (hpre : "select".data.isPrefixOf (lowerCleaned q) = true ∨
            "with".data.isPrefixOf (lowerCleaned q) = true ∨
            "explain select".data.isPrefixOf (lowerCleaned q) = true)
    (hforb : containsForbiddenWrite (lowerCleaned q) = false) :
    ensureReadOnlySQL q = .ok () :=
  (ensureReadOnly_ok_iff q).mpr ⟨hpre, hforb⟩

/-- Witness for C10: `"/* drop */ SELECT 1"` carries the forbidden word
`drop` in its leading comment, yet `ensureReadOnlySQL` accepts it. -/
theorem c10_scan_on_stripped_text_witness :
    containsForbiddenWrite (goToLower "/* drop */ SELECT 1".data) = true ∧
    ensureReadOnlySQL "/* drop */ SELECT 1".data = .ok () :=
  ⟨by decide, c10_scan_on_stripped_text _ (Or.inl (by decide)) (by decide)⟩

/-- Counterexample for C2 as stated: the input text
`"/* limit 5 */ select 1"` does contain a case-insensitive
`limit <digits>` token, yet `ensureLimit` does not leave it unchanged
(the scan runs on the comment-stripped text, not the original text). -/
theorem c2_counterexample :
    containsLimitToken (goToLower "/* limit 5 */ select 1".data) = true ∧
    ensureLimit "/* limit 5 */ select 1".data 10 ≠ "/* limit 5 */ select 1".data := by
  exact ⟨by decide, by decide⟩

/-- Claim C2 (amended): `ensureLimit` is a no-op when the limit is not
positive, when the comment-stripped statement does not start with
`select`/`with`, or when the comment-stripped lower-cased statement
already contains a `limit <digits>` token; otherwise it trims surrounding
white space and one trailing semicolon and appends `" LIMIT <n>;"`; the
three spec examples behave as stated. -/
theorem c2_ensureLimit_characterization :
    (∀ (q : List Char) (n : Int), n ≤ 0 → ensureLimit q n = q) ∧
    (∀ (q : List Char) (n : Int),
      ¬("select".data.isPrefixOf (lowerCleaned q) = true ∨
        "with".data.isPrefixOf (lowerCleaned q) = true) →
      ensureLimit q n = q) ∧
    (∀ (q : List Char) (n : Int),
      containsLimitToken (lowerCleaned q) = true → ensureLimit q n = q) ∧
    (∀ (q : List Char) (n : Int), 0 < n →
      ("select".data.isPrefixOf (lowerCleaned q) = true ∨
       "with".data.isPrefixOf (lowerCleaned q) = true) →
      containsLimitToken (lowerCleaned q) = false →
      ensureLimit q n =
        goTrimSuffixSemi (goTrimSpace q) ++ " LIMIT ".data ++ goFormatInt n ++ [';']) ∧
    ensureLimit "SELECT * FROM t".data 10 = "SELECT * FROM t LIMIT 10;".data ∧
    ensureLimit "SELECT * FROM t LIMIT 5".data 10 = "SELECT * FROM t LIMIT 5".data ∧
    ensureLimit "UPDATE t SET x=1".data 10 = "UPDATE t SET x=1".data := by
  refine ⟨?_, ?_, ?_, ?_, by decide, by decide, by decide⟩
  · intro q n hn
    simp [ensureLimit, hn]
  · intro q n hpre
    by_cases hn : n ≤ 0
    · simp [ensureLimit, hn]
    · push_neg at hpre
      simp only [Bool.not_eq_true] at hpre
      simp [ensureLimit, hn, hpre.1, hpre.2]
  · intro q n hlim
    by_cases hn : n ≤ 0
    · simp [ensureLimit, hn]
    · by_cases hpre : ("select".data.isPrefixOf (lowerCleaned q) ||
          "with".data.isPrefixOf (lowerCleaned q)) = true
      · simp [ensureLimit, hn, hpre, hlim]
      · simp only [Bool.not_eq_true] at hpre
        simp [ensureLimit, hn, hpre]
  · intro q n hn hpre hlim
    have hn' : ¬n ≤ 0 := by omega
    have hpre' : ("select".data.isPrefixOf (lowerCleaned q) ||
        "with".data.isPrefixOf (lowerCleaned q)) = true := by
      rcases hpre with h | h <;> simp [h]
    simp [ensureLimit, hn', hpre', hlim]

/-- Witness for C2 (amended): each guarded branch applied at a concrete
input. -/
theorem c2_ensureLimit_characterization_witness :
    ensureLimit "select 1".data (-3) = "select 1".data ∧
    ensureLimit "delete from t".data 7 = "delete from t".data ∧
    ensureLimit "select 2 limit 3".data 7 = "select 2 limit 3".data ∧
    ensureLimit "  select 2; ".data 7 =
      goTrimSuffixSemi (goTrimSpace "  select 2; ".data) ++ " LIMIT ".data ++
        goFormatInt 7 ++ [';'] :=
  ⟨c2_ensureLimit_characterization.1 _ _ (by decide),
   c2_ensureLimit_characterization.2.1 _ _ (by decide),
   c2_ensureLimit_characterization.2.2.1 _ _ (by decide),
   c2_ensureLimit_characterization.2.2.2.1 _ _ (by decide) (Or.inl (by decide)) (by decide)⟩

theorem splitOnDot_ne_nil (s : List Char) : splitOnDot s ≠ [] := by
  induction s with
  | nil => simp [splitOnDot]
  | cons c rest ih =>
    simp only [splitOnDot]
    by_cases hc : c = '.'
    · simp [hc]
    · simp only [hc, if_false]
      cases h : splitOnDot rest <;> simp

theorem splitOnDot_cons_ne_length (c : Char) (rest : List Char) (hc : c ≠ '.') :
    (splitOnDot (c :: rest)).length = (splitOnDot rest).length := by
  simp only [splitOnDot, if_neg hc]
  cases h : splitOnDot rest with
  | nil => exact absurd h (splitOnDot_ne_nil rest)
  | cons hh tt => simp

theorem splitOnDot_length_gt_one_iff (s : List Char) :
    1 < (splitOnDot s).length ↔ '.' ∈ s := by
  induction s with
  | nil => simp [splitOnDot]
  | cons c rest ih =>
    by_cases hc : c = '.'
    · subst hc
      have hpos := List.length_pos.mpr (splitOnDot_ne_nil rest)
      simp [splitOnDot]
      omega
    · rw [splitOnDot_cons_ne_length c rest hc, ih, List.mem_cons]
      constructor
      · intro hm; exact Or.inr hm
      · intro hm
        rcases hm with hm | hm
        · exact absurd hm.symm hc
        · exact hm

/-- Claim C7: an (effectively) empty filter matches everything; a
non-empty filter matches exactly the names whose lower-cased trimmed full
form is in the set, or whose suffix after the last dot is in the set for
dotted names; in particular scope token `users` matches `public.users`. -/
theorem c7_table_filter :
    (∀ (scope : List (List Char)) (name : List Char),
      allowTableName name (makeTableFilter scope) = true ↔
        (makeTableFilter scope = [] ∨
         goToLower (goTrimSpace name) ∈ makeTableFilter scope ∨
         ('.' ∈ goToLower (goTrimSpace name) ∧
          (splitOnDot (goToLower (goTrimSpace name))).getLastD [] ∈
            makeTableFilter scope))) ∧
    allowTableName "public.users".data (makeTableFilter ["users".data]) = true := by
  refine ⟨?_, by decide⟩
  intro scope name
  by_cases hf : makeTableFilter scope = []
  · simp [allowTableName, hf]
  · have hne : (makeTableFilter scope).isEmpty = false := by
      simpa [List.isEmpty_iff] using hf
    by_cases hmem : goToLower (goTrimSpace name) ∈ makeTableFilter scope
    · simp [allowTableName, hne, hmem]
    · by_cases hdot : '.' ∈ goToLower (goTrimSpace name)
      · have hlen : 1 < (splitOnDot (goToLower (goTrimSpace name))).length :=
          (splitOnDot_length_gt_one_iff _).mpr hdot
        by_cases hlast : (splitOnDot (goToLower (goTrimSpace name))).getLastD [] ∈
            makeTableFilter scope
        · simp [allowTableName, hne, hmem, hlen, hlast, hdot, hf]
        · simp [allowTableName, hne, hmem, hlen, hlast, hdot, hf]
      · have hlen : ¬1 < (splitOnDot (goToLower (goTrimSpace name))).length := by
          rw [splitOnDot_length_gt_one_iff]
          exact hdot
        simp [allowTableName, hne, hmem, hlen, hdot, hf]

/-! Helper lemmas for the idempotence of `ensureLimit`. -/

theorem natToDigitsAux_mem (fuel : Nat) :
    ∀ (n : Nat) (acc : List Char), (∀ c ∈ acc, c ∈ digitChars) →
      ∀ c ∈ natToDigitsAux fuel n acc, c ∈ digitChars := by
  induction fuel with
  | zero => intro n acc h c hc; exact h c hc
  | succ f ih =>
    intro n acc h c hc
    have h10 : n % 10 < 10 := Nat.mod_lt _ (by norm_num)
    have hd : Char.ofNat (48 + n % 10) ∈ digitChars := by
      set m := n % 10 with hm
      interval_cases m <;> decide
    simp only [natToDigitsAux] at hc
    by_cases hn : n < 10
    · rw [if_pos hn] at hc
      rcases List.mem_cons.mp hc with rfl | hc'
      · exact hd
      · exact h c hc'
    · rw [if_neg hn] at hc
      refine ih (n / 10) _ ?_ c hc
      intro x hx
      rcases List.mem_cons.mp hx with rfl | hx'
      · exact hd
      · exact h x hx'

theorem natToDigitsAux_ne_nil (fuel : Nat) :
    ∀ (n : Nat) (acc : List Char), acc ≠ [] → natToDigitsAux fuel n acc ≠ [] := by
  induction fuel with
  | zero => intro n acc h; exact h
  | succ f ih =>
    intro n acc h
    simp only [natToDigitsAux]
    by_cases hn : n < 10
    · simp [hn]
    · rw [if_neg hn]
      exact ih _ _ (by simp)

theorem natToDigits_ne_nil (n : Nat) : natToDigits n ≠ [] := by
  simp only [natToDigits, natToDigitsAux]
  by_cases hn : n < 10
  · simp [hn]
  · rw [if_neg hn]
    exact natToDigitsAux_ne_nil _ _ _ (by simp)

theorem natToDigits_mem (n : Nat) : ∀ c ∈ natToDigits n, c ∈ digitChars :=
  natToDigitsAux_mem _ _ _ (by simp)

theorem getLast?_eq_of_suffix {l₁ l₂ : List Char} (h : l₁ <:+ l₂) (hne : l₁ ≠ []) :
    l₁.getLast? = l₂.getLast? := by
  obtain ⟨pre, rfl⟩ := h
  exact (List.getLast?_append_of_ne_nil pre hne).symm

theorem goTrimRight_eq_self (s : List Char) (c : Char) (h : s.getLast? = some c)
    (hc : goIsSpace c = false) : goTrimRight s = s := by
  unfold goTrimRight
  cases hr : s.reverse with
  | nil =>
    have hs : s = [] := by simpa using congrArg List.reverse hr
    rw [hs] at h
    simp at h
  | cons d t =>
    have hd : d = c := by
      have hh := List.head?_reverse s
      rw [hr] at hh
      simp only [List.head?_cons] at hh
      rw [h] at hh
      exact Option.some.inj hh
    subst hd
    rw [List.dropWhile_cons, hc]
    simp only [Bool.false_eq_true, if_false]
    rw [← hr, List.reverse_reverse]

theorem goTrimLeft_append_startL (u w : List Char) :
    goTrimLeft (u ++ 'L' :: w) = goTrimLeft u ++ 'L' :: w := by
  induction u with
  | nil =>
    simp only [List.nil_append, goTrimLeft, List.dropWhile_cons]
    simp [show goIsSpace 'L' = false from by decide]
  | cons c u' ih =>
    simp only [List.cons_append, goTrimLeft, List.dropWhile_cons] at ih ⊢
    by_cases hsp : goIsSpace c = true
    · simp only [hsp, if_true]
      exact ih
    · simp only [hsp, Bool.false_eq_true, if_false]
      simp at hsp
      simp [hsp]

theorem goTrimLeft_endsSpace (u : List Char) (h : u = [] ∨ u.getLast? = some ' ') :
    goTrimLeft u = [] ∨ (goTrimLeft u).getLast? = some ' ' := by
  by_cases he : goTrimLeft u = []
  · exact Or.inl he
  · right
    rcases h with rfl | hl
    · simp [goTrimLeft] at he
    · have hs : goTrimLeft u <:+ u := List.dropWhile_suffix _
      exact (getLast?_eq_of_suffix hs he).trans hl


theorem bool_eq_false_of_not_true {b : Bool} (h : ¬b = true) : b = false := by
  cases b
  · rfl
  · exact absurd rfl h

theorem dtn_cons (c : Char) (rest : List Char) :
    dropThroughNewline (c :: rest) =
      if c = '\n' then some rest else dropThroughNewline rest := rfl

theorem dtbe_cons (c : Char) (rest : List Char) :
    dropThroughBlockEnd (c :: rest) =
      if c = '*' ∧ rest.head? = some '/' then some rest.tail
      else dropThroughBlockEnd rest := rfl

theorem scanLimit_cons (prev : Option Char) (c : Char) (rest : List Char) :
    scanLimit prev (c :: rest) =
      ((boundaryOK prev && limitTokenHere (c :: rest)) || scanLimit (some c) rest) := rfl

theorem dtn_none (w : List Char) (hw : ∀ c ∈ w, c ≠ '\n') :
    dropThroughNewline w = none := by
  induction w with
  | nil => rfl
  | cons c rest ih =>
    have hc : c ≠ '\n' := hw c (List.mem_cons_self _ _)
    rw [dtn_cons, if_neg hc]
    exact ih fun x hx => hw x (List.mem_cons_of_mem _ hx)

theorem dtn_append (u w : List Char) (hw : ∀ c ∈ w, c ≠ '\n') :
    dropThroughNewline (u ++ w) = (dropThroughNewline u).map (· ++ w) := by
  induction u with
  | nil =>
    rw [List.nil_append, dtn_none w hw]
    rfl
  | cons c u' ih =>
    rw [List.cons_append, dtn_cons, dtn_cons]
    by_cases hc : c = '\n'
    · rw [if_pos hc, if_pos hc]
      rfl
    · rw [if_neg hc, if_neg hc]
      exact ih

theorem dtn_getLast? :
    ∀ (u u₂ : List Char), dropThroughNewline u = some u₂ → u₂ ≠ [] →
      u₂.getLast? = u.getLast? := by
  intro u
  induction u with
  | nil => intro u₂ h _; simp [dropThroughNewline] at h
  | cons c rest ih =>
    intro u₂ h hne
    rw [dtn_cons] at h
    by_cases hc : c = '\n'
    · rw [if_pos hc] at h
      have hru : rest = u₂ := Option.some.inj h
      subst hru
      cases rest with
      | nil => exact absurd rfl hne
      | cons a t => rw [List.getLast?_cons_cons]
    · rw [if_neg hc] at h
      have hrne : rest ≠ [] := by
        intro hr
        rw [hr] at h
        simp [dropThroughNewline] at h
      cases rest with
      | nil => exact absurd rfl hrne
      | cons a t =>
        rw [List.getLast?_cons_cons]
        exact ih u₂ h hne

theorem dtbe_none (w : List Char) (hw : ∀ c ∈ w, c ≠ '*') :
    dropThroughBlockEnd w = none := by
  induction w with
  | nil => rfl
  | cons c rest ih =>
    have hc : c ≠ '*' := hw c (List.mem_cons_self _ _)
    rw [dtbe_cons, if_neg (fun h => hc h.1)]
    exact ih fun x hx => hw x (List.mem_cons_of_mem _ hx)

theorem dtbe_append (u w : List Char) (hw : ∀ c ∈ w, c ≠ '*')
    (hw2 : w.head? ≠ some '/') :
    dropThroughBlockEnd (u ++ w) = (dropThroughBlockEnd u).map (· ++ w) := by
  induction u with
  | nil =>
    rw [List.nil_append, dtbe_none w hw]
    rfl
  | cons c u' ih =>
    cases u' with
    | nil =>
      have hns : ¬(c = '*' ∧ w.head? = some '/') := fun h => hw2 h.2
      have hns2 : ¬(c = '*' ∧ ([] : List Char).head? = some '/') := by simp
      rw [List.cons_append, List.nil_append, dtbe_cons, if_neg hns, dtbe_cons,
        if_neg hns2, dtbe_none w hw]
      rfl
    | cons d u'' =>
      by_cases hcd : c = '*' ∧ d = '/'
      · obtain ⟨rfl, rfl⟩ := hcd
        have hp1 : ('*' : Char) = '*' ∧ ('/' :: (u'' ++ w)).head? = some '/' := by
          exact ⟨rfl, rfl⟩
        have hp2 : ('*' : Char) = '*' ∧ ('/' :: u'').head? = some '/' := ⟨rfl, rfl⟩
        rw [List.cons_append, List.cons_append, dtbe_cons, if_pos hp1, dtbe_cons,
          if_pos hp2]
        rfl
      · have hc1 : ¬(c = '*' ∧ (d :: (u'' ++ w)).head? = some '/') := by
          intro h
          exact hcd ⟨h.1, by simpa using h.2⟩
        have hc2 : ¬(c = '*' ∧ (d :: u'').head? = some '/') := by
          intro h
          exact hcd ⟨h.1, by simpa using h.2⟩
        rw [List.cons_append, List.cons_append]
        rw [show dropThroughBlockEnd (c :: d :: (u'' ++ w)) =
            dropThroughBlockEnd (d :: (u'' ++ w)) from by rw [dtbe_cons, if_neg hc1]]
        rw [show dropThroughBlockEnd (c :: d :: u'') =
            dropThroughBlockEnd (d :: u'') from by rw [dtbe_cons, if_neg hc2]]
        rw [← List.cons_append]
        exact ih

theorem dtbe_getLast? :
    ∀ (u u₂ : List Char), dropThroughBlockEnd u = some u₂ → u₂ ≠ [] →
      u₂.getLast? = u.getLast? := by
  intro u
  induction u with
  | nil => intro u₂ h _; simp [dropThroughBlockEnd] at h
  | cons c rest ih =>
    intro u₂ h hne
    rw [dtbe_cons] at h
    by_cases hc : c = '*' ∧ rest.head? = some '/'
    · rw [if_pos hc] at h
      have htu : rest.tail = u₂ := Option.some.inj h
      cases rest with
      | nil => simp at hc
      | cons a t =>
        have ha : a = '/' := by simpa using hc.2
        subst ha
        simp only [List.tail_cons] at htu
        subst htu
        cases t with
        | nil => exact absurd rfl hne
        | cons b s => rw [List.getLast?_cons_cons, List.getLast?_cons_cons]
    · rw [if_neg hc] at h
      have hrne : rest ≠ [] := by
        intro hr
        rw [hr] at h
        simp [dropThroughBlockEnd] at h
      cases rest with
      | nil => exact absurd rfl hrne
      | cons a t =>
        rw [List.getLast?_cons_cons]
        exact ih u₂ h hne

theorem limitCore_no_newline (D : List Char) (hD : ∀ c ∈ D, c ∈ digitChars) :
    ∀ c ∈ limitCore D, c ≠ '\n' := by
  intro c hc
  simp only [limitCore, List.mem_cons, List.mem_append] at hc
  rcases hc with rfl | rfl | rfl | rfl | rfl | rfl | hc | hc
  · decide
  · decide
  · decide
  · decide
  · decide
  · decide
  · have hd := hD c hc
    fin_cases hd <;> decide
  · rcases hc with rfl | h
    · decide
    · exact absurd h (List.not_mem_nil c)

theorem limitCore_no_star (D : List Char) (hD : ∀ c ∈ D, c ∈ digitChars) :
    ∀ c ∈ limitCore D, c ≠ '*' := by
  intro c hc
  simp only [limitCore, List.mem_cons, List.mem_append] at hc
  rcases hc with rfl | rfl | rfl | rfl | rfl | rfl | hc | hc
  · decide
  · decide
  · decide
  · decide
  · decide
  · decide
  · have hd := hD c hc
    fin_cases hd <;> decide
  · rcases hc with rfl | h
    · decide
    · exact absurd h (List.not_mem_nil c)

theorem limitCore_getLast? (D : List Char) :
    (limitCore D).getLast? = some ';' := by
  rw [show limitCore D = ('L' :: 'I' :: 'M' :: 'I' :: 'T' :: ' ' :: D) ++ [';'] by
    simp [limitCore]]
  exact List.getLast?_concat _

theorem goTrimSpace_append_limitCore (D x : List Char) :
    goTrimSpace (x ++ limitCore D) = goTrimLeft x ++ limitCore D := by
  unfold goTrimSpace
  rw [goTrimRight_eq_self _ ';'
    (by rw [List.getLast?_append_of_ne_nil x (by simp [limitCore])]
        exact limitCore_getLast? D)
    (by decide)]
  exact goTrimLeft_append_startL x _

theorem stripGo_core (D : List Char) (hD : ∀ c ∈ D, c ∈ digitChars) :
    ∀ (fuel : Nat) (u : List Char), (u = [] ∨ u.getLast? = some ' ') →
      stripGo fuel (u ++ limitCore D) = [] ∨
        ∃ u', (u' = [] ∨ u'.getLast? = some ' ') ∧
          stripGo fuel (u ++ limitCore D) = u' ++ limitCore D := by
  intro fuel
  induction fuel with
  | zero =>
    intro u hu
    right
    exact ⟨goTrimLeft u, goTrimLeft_endsSpace u hu,
      goTrimSpace_append_limitCore D u⟩
  | succ f ih =>
    intro u hu
    have hu₁ := goTrimLeft_endsSpace u hu
    simp only [stripGo, goTrimSpace_append_limitCore D u]
    by_cases hdash :
        (['-', '-'] : List Char).isPrefixOf (goTrimLeft u ++ limitCore D) = true
    · rw [if_pos hdash]
      rw [dtn_append (goTrimLeft u) (limitCore D) (limitCore_no_newline D hD)]
      cases hdtn : dropThroughNewline (goTrimLeft u) with
      | none => exact Or.inl rfl
      | some u₂ =>
        refine ih u₂ ?_
        by_cases hne2 : u₂ = []
        · exact Or.inl hne2
        · right
          rcases hu₁ with h0 | hsp
          · rw [h0] at hdtn
            simp [dropThroughNewline] at hdtn
          · exact (dtn_getLast? _ _ hdtn hne2).trans hsp
    · rw [if_neg hdash]
      by_cases hblk :
          (['/', '*'] : List Char).isPrefixOf (goTrimLeft u ++ limitCore D) = true
      · rw [if_pos hblk]
        rw [dtbe_append (goTrimLeft u) (limitCore D) (limitCore_no_star D hD)
          (by simp [limitCore])]
        cases hdtb : dropThroughBlockEnd (goTrimLeft u) with
        | none => exact Or.inl rfl
        | some u₂ =>
          refine ih u₂ ?_
          by_cases hne2 : u₂ = []
          · exact Or.inl hne2
          · right
            rcases hu₁ with h0 | hsp
            · rw [h0] at hdtb
              simp [dropThroughBlockEnd] at hdtb
            · exact (dtbe_getLast? _ _ hdtb hne2).trans hsp
      · rw [if_neg hblk]
        exact Or.inr ⟨goTrimLeft u, hu₁, rfl⟩

theorem toLower_limitCore (D : List Char) (hD : ∀ c ∈ D, c ∈ digitChars) :
    goToLower (limitCore D) =
      'l' :: 'i' :: 'm' :: 'i' :: 't' :: ' ' :: (D ++ [';']) := by
  have hid : ∀ c ∈ D, Char.toLower c = id c := by
    intro c hc
    have hd := hD c hc
    fin_cases hd <;> decide
  simp only [goToLower, limitCore, List.map_cons, List.map_append, List.map_nil]
  rw [List.map_congr_left hid, List.map_id]
  rw [show Char.toLower 'L' = 'l' from by decide,
    show Char.toLower 'I' = 'i' from by decide,
    show Char.toLower 'M' = 'm' from by decide,
    show Char.toLower 'T' = 't' from by decide,
    show Char.toLower ' ' = ' ' from by decide,
    show Char.toLower ';' = ';' from by decide]

theorem scanLimit_finds (D : List Char) (hD : ∀ c ∈ D, c ∈ digitChars)
    (hne : D ≠ []) :
    ∀ (v : List Char) (prev : Option Char),
      (v = [] → boundaryOK prev = true) →
      (v ≠ [] → v.getLast? = some ' ') →
      scanLimit prev
        (v ++ 'l' :: 'i' :: 'm' :: 'i' :: 't' :: ' ' :: (D ++ [';'])) = true := by
  have hlth :
      limitTokenHere ('l' :: 'i' :: 'm' :: 'i' :: 't' :: ' ' :: (D ++ [';'])) = true := by
    obtain ⟨d, D', rfl⟩ : ∃ d D', D = d :: D' := by
      cases D with
      | nil => exact absurd rfl hne
      | cons d D' => exact ⟨d, D', rfl⟩
    have hd := hD d (List.mem_cons_self _ _)
    have h1 : reIsSpace d = false := by fin_cases hd <;> decide
    have h2 : d.isDigit = true := by
      have hd2 := hD d (List.mem_cons_self _ _)
      fin_cases hd2 <;> decide
    unfold limitTokenHere
    have hcip : ciPrefix limitWord
        ('l' :: 'i' :: 'm' :: 'i' :: 't' :: ' ' :: ((d :: D') ++ [';'])) = true := rfl
    rw [hcip]
    have hdrop :
        ('l' :: 'i' :: 'm' :: 'i' :: 't' :: ' ' :: ((d :: D') ++ [';'])).drop 5 =
          ' ' :: ((d :: D') ++ [';']) := rfl
    rw [hdrop]
    have hsd : spaceThenDigit (' ' :: ((d :: D') ++ [';'])) = true := by
      simp only [spaceThenDigit, List.cons_append, List.dropWhile_cons, h1,
        Bool.false_eq_true, if_false]
      rw [show reIsSpace ' ' = true from by decide]
      simp [h2]
    rw [hsd]
    rfl
  intro v
  induction v with
  | nil =>
    intro prev hb _
    have hbb := hb rfl
    rw [List.nil_append, scanLimit_cons, hbb, hlth]
    rfl
  | cons c v' ih =>
    intro prev hb hl
    have hlast : (c :: v').getLast? = some ' ' := hl (by simp)
    rw [List.cons_append, scanLimit_cons]
    have htail : scanLimit (some c)
        (v' ++ 'l' :: 'i' :: 'm' :: 'i' :: 't' :: ' ' :: (D ++ [';'])) = true := by
      refine ih (some c) ?_ ?_
      · intro hv'
        subst hv'
        have hcs : c = ' ' := by simpa using hlast
        subst hcs
        decide
      · intro hv'
        cases v' with
        | nil => exact absurd rfl hv'
        | cons a t =>
          rw [List.getLast?_cons_cons] at hlast
          exact hlast
    rw [htail]
    simp

theorem ensureLimit_of_pos (q : List Char) (n : Int) (hn : ¬n ≤ 0) :
    ensureLimit q n =
      if !("select".data.isPrefixOf (lowerCleaned q) ||
            "with".data.isPrefixOf (lowerCleaned q)) then q
      else if containsLimitToken (lowerCleaned q) then q
      else goTrimSuffixSemi (goTrimSpace q) ++ " LIMIT ".data ++ goFormatInt n ++ [';'] := by
  simp only [ensureLimit, if_neg hn]

/-- Claim C3: `ensureLimit` is idempotent: applying it twice with the same
limit yields the same result as applying it once, because a statement that
already carries a limit (in particular one it just appended) is detected
and left unchanged. -/
theorem c3_ensureLimit_idempotent (q : List Char) (n : Int) :
    ensureLimit (ensureLimit q n) n = ensureLimit q n := by
  by_cases hn : n ≤ 0
  · have h : ensureLimit q n = q := by simp [ensureLimit, hn]
    rw [h]
    exact h
  · by_cases hpre : ("select".data.isPrefixOf (lowerCleaned q) ||
        "with".data.isPrefixOf (lowerCleaned q)) = true
    · by_cases hlim : containsLimitToken (lowerCleaned q) = true
      · have h : ensureLimit q n = q := by
          rw [ensureLimit_of_pos q n hn, hpre]
          rw [if_neg (by decide : ¬((!true) = true))]
          exact if_pos hlim
        rw [h]
        exact h
      · have hneg : ¬n < 0 := by omega
        have hD : ∀ c ∈ natToDigits n.toNat, c ∈ digitChars := natToDigits_mem _
        have hDne : natToDigits n.toNat ≠ [] := natToDigits_ne_nil _
        have hgf : goFormatInt n = natToDigits n.toNat := by
          simp [goFormatInt, hneg]
        have hdata : (" LIMIT ".data : List Char) =
            ' ' :: 'L' :: 'I' :: 'M' :: 'I' :: 'T' :: [' '] := rfl
        have hfirst : ensureLimit q n =
            (goTrimSuffixSemi (goTrimSpace q) ++ [' ']) ++
              limitCore (natToDigits n.toNat) := by
          rw [ensureLimit_of_pos q n hn, hpre]
          rw [if_neg (by decide : ¬((!true) = true)), if_neg hlim]
          rw [hgf, hdata]
          simp [limitCore, List.append_assoc]
        rw [hfirst]
        have hu0 : goTrimSuffixSemi (goTrimSpace q) ++ [' '] = [] ∨
            (goTrimSuffixSemi (goTrimSpace q) ++ [' ']).getLast? = some ' ' :=
          Or.inr (List.getLast?_concat _)
        rcases stripGo_core (natToDigits n.toNat) hD
            (((goTrimSuffixSemi (goTrimSpace q) ++ [' ']) ++
              limitCore (natToDigits n.toNat)).length + 1) _ hu0 with
          hnil | ⟨u', hu', heq⟩
        · have hlc : lowerCleaned ((goTrimSuffixSemi (goTrimSpace q) ++ [' ']) ++
              limitCore (natToDigits n.toNat)) = [] := by
            unfold lowerCleaned stripLeadingComments
            rw [hnil]
            rfl
          rw [ensureLimit_of_pos _ n hn]
          have hpre2 : ("select".data.isPrefixOf
              (lowerCleaned ((goTrimSuffixSemi (goTrimSpace q) ++ [' ']) ++
                limitCore (natToDigits n.toNat))) ||
              "with".data.isPrefixOf
              (lowerCleaned ((goTrimSuffixSemi (goTrimSpace q) ++ [' ']) ++
                limitCore (natToDigits n.toNat)))) = false := by
            rw [hlc]
            decide
          rw [hpre2]
          exact if_pos (by decide)
        · have hlc : lowerCleaned ((goTrimSuffixSemi (goTrimSpace q) ++ [' ']) ++
              limitCore (natToDigits n.toNat)) =
              goToLower (goTrimLeft u') ++
                ('l' :: 'i' :: 'm' :: 'i' :: 't' :: ' ' ::
                  (natToDigits n.toNat ++ [';'])) := by
            unfold lowerCleaned stripLeadingComments
            rw [heq, goTrimSpace_append_limitCore]
            unfold goToLower
            rw [List.map_append]
            rw [show List.map Char.toLower (limitCore (natToDigits n.toNat)) =
                goToLower (limitCore (natToDigits n.toNat)) from rfl,
              toLower_limitCore _ hD]
          have hpv : goToLower (goTrimLeft u') = [] ∨
              (goToLower (goTrimLeft u')).getLast? = some ' ' := by
            rcases goTrimLeft_endsSpace u' hu' with h0 | hsp
            · left
              rw [h0]
              rfl
            · right
              unfold goToLower
              rw [List.getLast?_map, hsp]
              rfl
          have hlim2 : containsLimitToken
              (lowerCleaned ((goTrimSuffixSemi (goTrimSpace q) ++ [' ']) ++
                limitCore (natToDigits n.toNat))) = true := by
            rw [hlc]
            unfold containsLimitToken
            refine scanLimit_finds _ hD hDne (goToLower (goTrimLeft u')) none ?_ ?_
            · intro _
              rfl
            · intro hne2
              rcases hpv with h0 | hsp
              · exact absurd h0 hne2
              · exact hsp
          rw [ensureLimit_of_pos _ n hn]
          by_cases hpre2 : ("select".data.isPrefixOf
              (lowerCleaned ((goTrimSuffixSemi (goTrimSpace q) ++ [' ']) ++
                limitCore (natToDigits n.toNat))) ||
              "with".data.isPrefixOf
              (lowerCleaned ((goTrimSuffixSemi (goTrimSpace q) ++ [' ']) ++
                limitCore (natToDigits n.toNat)))) = true
          · rw [hpre2, if_neg (by decide : ¬((!true) = true))]
            exact if_pos hlim2
          · rw [bool_eq_false_of_not_true hpre2]
            exact if_pos (by decide)
    · have hpre' : ("select".data.isPrefixOf (lowerCleaned q) ||
          "with".data.isPrefixOf (lowerCleaned q)) = false :=
        bool_eq_false_of_not_true hpre
      have h : ensureLimit q n = q := by
        rw [ensureLimit_of_pos q n hn, hpre']
        exact if_pos (by decide)
      rw [h]
      exact h

/-! Value normalization and the query executor. -/

/-- Claim C4: normalization maps `null` to `null`, timestamps to their
RFC-3339 nanosecond string, and raw byte buffers through the ordered
fallback int64 → float64 → bool → string, first successful parse winning;
`"42"`, `"3.14"`, `"true"` and `"hello"` behave as the spec's examples
state. -/
theorem c4_normalize_value :
    normalizeDBValue .vnull = .vnull ∧
    (∀ t : GoTime, normalizeDBValue (.vtime t) = .vstr (formatRFC3339Nano t)) ∧
    (∀ (s : List Char) (i : Int), goParseInt64 s = some i →
      normalizeDBValue (.vbytes s) = .vint i) ∧
    (∀ (s : List Char) (f : GoFloat), goParseInt64 s = none →
      goParseFloat s = some f → normalizeDBValue (.vbytes s) = .vfloat f) ∧
    (∀ (s : List Char) (b : Bool), goParseInt64 s = none → goParseFloat s = none →
      goParseBool s = some b → normalizeDBValue (.vbytes s) = .vbool b) ∧
    (∀ s : List Char, goParseInt64 s = none → goParseFloat s = none →
      goParseBool s = none → normalizeDBValue (.vbytes s) = .vstr s) ∧
    normalizeDBValue (.vbytes "42".data) = .vint 42 ∧
    normalizeDBValue (.vbytes "3.14".data) = .vfloat (.finite (Rat.divInt 157 50)) ∧
    normalizeDBValue (.vbytes "true".data) = .vbool true ∧
    normalizeDBValue (.vbytes "hello".data) = .vstr "hello".data := by
  refine ⟨rfl, fun t => rfl, ?_, ?_, ?_, ?_, by decide, by decide, by decide, by decide⟩
  · intro s i h
    simp only [normalizeDBValue, h]
  · intro s f h1 h2
    simp only [normalizeDBValue, h1, h2]
  · intro s b h1 h2 h3
    simp only [normalizeDBValue, h1, h2, h3]
  · intro s h1 h2 h3
    simp only [normalizeDBValue, h1, h2, h3]

/-- Witness for C4: each conditional branch of the fallback chain applied
at a concrete byte buffer. -/
theorem c4_normalize_value_witness :
    normalizeDBValue (.vbytes "7".data) = .vint 7 ∧
    normalizeDBValue (.vbytes "0.5".data) = .vfloat (.finite (Rat.divInt 1 2)) ∧
    normalizeDBValue (.vbytes "t".data) = .vbool true ∧
    normalizeDBValue (.vbytes "x y".data) = .vstr "x y".data :=
  ⟨c4_normalize_value.2.2.1 "7".data 7 (by decide),
   c4_normalize_value.2.2.2.1 "0.5".data (.finite (Rat.divInt 1 2)) (by decide) (by decide),
   c4_normalize_value.2.2.2.2.1 "t".data true (by decide) (by decide) (by decide),
   c4_normalize_value.2.2.2.2.2.1 "x y".data (by decide) (by decide) (by decide)⟩

theorem executeQuery_ok_def (rd : RowsData) :
    executeQuery (.ok rd) =
      match rd.columnsRes with
      | .error e => (none, none, some e)
      | .ok cols =>
        match scanRows cols rd.entries with
        | .error e => (none, none, some e)
        | .ok rows =>
          match rd.finalErr with
          | some e => (none, none, some e)
          | none => (some cols, some rows, none) := rfl

theorem scanRows_error_of_mem (cols : List (List Char)) :
    ∀ entries : List (Except GoErr (List GoVal)),
      (∃ e, Except.error e ∈ entries) →
      ∃ e', scanRows cols entries = .error e' := by
  intro entries
  induction entries with
  | nil =>
    rintro ⟨e, he⟩
    simp at he
  | cons en rest ih =>
    rintro ⟨e, he⟩
    cases en with
    | error e0 => exact ⟨e0, rfl⟩
    | ok vals =>
      have hrest : ∃ e, Except.error e ∈ rest := by
        rcases List.mem_cons.mp he with h | h
        · exact absurd h (by simp)
        · exact ⟨e, h⟩
      obtain ⟨e', he'⟩ := ih hrest
      refine ⟨e', ?_⟩
      rw [show scanRows cols (Except.ok vals :: rest) =
        (match scanRows cols rest with
         | .error e => .error e
         | .ok rs => .ok (mkRow cols vals :: rs)) from rfl, he']

/-- Claim C5: whenever a scan fails mid-stream or the final cursor error
is set, `executeQuery` returns an error with no columns and no rows; any
rows collected before the failure are discarded. -/
theorem c5_executeQuery_discards_on_error (rd : RowsData)
    (h : (∃ e, Except.error e ∈ rd.entries) ∨ rd.finalErr ≠ none) :
    ∃ e, executeQuery (.ok rd) = (none, none, some e) := by
  cases hcr : rd.columnsRes with
  | error e =>
    refine ⟨e, ?_⟩
    simp only [executeQuery_ok_def, hcr]
  | ok cols =>
    rcases h with hent | hfin
    · obtain ⟨e', he'⟩ := scanRows_error_of_mem cols rd.entries hent
      refine ⟨e', ?_⟩
      simp only [executeQuery_ok_def, hcr, he']
    · cases hsr : scanRows cols rd.entries with
      | error e' =>
        refine ⟨e', ?_⟩
        simp only [executeQuery_ok_def, hcr, hsr]
      | ok rows =>
        cases hfe : rd.finalErr with
        | none => exact absurd hfe hfin
        | some e =>
          refine ⟨e, ?_⟩
          simp only [executeQuery_ok_def, hcr, hsr, hfe]

/-- Witness for C5: a stream with one good row followed by a failing scan
yields no columns, no rows, and the scan error. -/
theorem c5_executeQuery_discards_on_error_witness :
    ((∃ e, Except.error e ∈ sampleErrRows.entries) ∨ sampleErrRows.finalErr ≠ none) ∧
    executeQuery (.ok sampleErrRows) = (none, none, some "boom".data) ∧
    (∃ e, executeQuery (.ok sampleErrRows) = (none, none, some e)) :=
  ⟨Or.inl ⟨"boom".data, by decide⟩, by decide,
   c5_executeQuery_discards_on_error sampleErrRows (Or.inl ⟨"boom".data, by decide⟩)⟩

theorem keys_setKey (m : List (List Char × GoVal)) (k : List Char) (v : GoVal) :
    (setKey m k v).map Prod.fst =
      if k ∈ m.map Prod.fst then m.map Prod.fst else m.map Prod.fst ++ [k] := by
  unfold setKey
  by_cases hmem : m.any (fun p => p.1 = k) = true
  · rw [if_pos hmem]
    have hk : k ∈ m.map Prod.fst := by
      rcases List.any_eq_true.mp hmem with ⟨p, hp, hpk⟩
      exact (of_decide_eq_true hpk) ▸ List.mem_map_of_mem Prod.fst hp
    rw [if_pos hk, List.map_map]
    apply List.map_congr_left
    intro p hp
    by_cases hpk : p.1 = k
    · simp [hpk]
    · simp [hpk]
  · rw [if_neg hmem]
    have hk : k ∉ m.map Prod.fst := by
      intro hmem2
      apply hmem
      rcases List.mem_map.mp hmem2 with ⟨p, hp, hpk⟩
      exact List.any_eq_true.mpr ⟨p, hp, decide_eq_true hpk⟩
    rw [if_neg hk, List.map_append]
    rfl

theorem keys_mkRow (cols : List (List Char)) (vals : List GoVal) :
    (mkRow cols vals).map Prod.fst = dedupKeys cols := by
  unfold mkRow dedupKeys
  have hgen : ∀ (l : List (Nat × List Char)) (m : List (List Char × GoVal)),
      (l.foldl (fun m ci => setKey m ci.2 (normalizeDBValue (vals.getD ci.1 .vnull))) m).map
          Prod.fst =
        (l.map Prod.snd).foldl (fun ks c => if c ∈ ks then ks else ks ++ [c])
          (m.map Prod.fst) := by
    intro l
    induction l with
    | nil => intro m; rfl
    | cons a l ihl =>
      intro m
      rw [List.foldl_cons, List.map_cons, List.foldl_cons, ihl, keys_setKey]
  have hh := hgen cols.enum []
  rw [List.enum_map_snd] at hh
  simpa using hh

theorem mem_dedupKeys (cols : List (List Char)) :
    ∀ k ∈ dedupKeys cols, k ∈ cols := by
  have hgen : ∀ (l init : List (List Char)) (k : List Char),
      k ∈ l.foldl (fun ks c => if c ∈ ks then ks else ks ++ [c]) init →
      k ∈ init ∨ k ∈ l := by
    intro l
    induction l with
    | nil => intro init k h; exact Or.inl h
    | cons c l ihl =>
      intro init k h
      rw [List.foldl_cons] at h
      rcases ihl _ k h with h1 | h1
      · by_cases hc : c ∈ init
        · rw [if_pos hc] at h1
          exact Or.inl h1
        · rw [if_neg hc] at h1
          rcases List.mem_append.mp h1 with h2 | h2
          · exact Or.inl h2
          · simp only [List.mem_singleton] at h2
            subst h2
            exact Or.inr (List.mem_cons_self _ _)
      · exact Or.inr (List.mem_cons_of_mem _ h1)
  intro k hk
  rcases hgen cols [] k hk with h | h
  · simp at h
  · exact h

theorem scanRows_ok_keys (cols : List (List Char)) :
    ∀ entries rows, scanRows cols entries = .ok rows →
      ∀ r ∈ rows, r.map Prod.fst = dedupKeys cols := by
  intro entries
  induction entries with
  | nil =>
    intro rows h r hr
    have hrows : ([] : List (List (List Char × GoVal))) = rows := Except.ok.inj h
    subst hrows
    simp at hr
  | cons en rest ih =>
    intro rows h r hr
    cases en with
    | error e => exact absurd h (by simp [scanRows])
    | ok vals =>
      rw [show scanRows cols (Except.ok vals :: rest) =
        (match scanRows cols rest with
         | .error e => .error e
         | .ok rs => .ok (mkRow cols vals :: rs)) from rfl] at h
      cases hsr : scanRows cols rest with
      | error e =>
        rw [hsr] at h
        simp at h
      | ok rs =>
        rw [hsr] at h
        have hrows : mkRow cols vals :: rs = rows := Except.ok.inj h
        subst hrows
        rcases List.mem_cons.mp hr with rfl | hr'
        · exact keys_mkRow cols vals
        · exact ih rs hsr r hr'

/-- Claim C9: on every successful execution, every row mapping's keys are
exactly the first-occurrence deduplication of the driver's column list,
hence drawn from the column list, and identical (length and order) across
all rows of the ResultSet. -/
theorem c9_resultSet_invariant (rd : RowsData) (cols : List (List Char))
    (rows : List (List (List Char × GoVal)))
    (h : executeQuery (.ok rd) = (some cols, some rows, none)) :
    (∀ r ∈ rows, r.map Prod.fst = dedupKeys cols) ∧
    (∀ r ∈ rows, ∀ k ∈ r.map Prod.fst, k ∈ cols) ∧
    (∀ r1 ∈ rows, ∀ r2 ∈ rows, r1.map Prod.fst = r2.map Prod.fst) := by
  cases hcr : rd.columnsRes with
  | error e =>
    simp only [executeQuery_ok_def, hcr] at h
    simp at h
  | ok cols0 =>
    simp only [executeQuery_ok_def, hcr] at h
    cases hsr : scanRows cols0 rd.entries with
    | error e =>
      simp only [hsr] at h
      simp at h
    | ok rows0 =>
      simp only [hsr] at h
      cases hfe : rd.finalErr with
      | some e =>
        simp only [hfe] at h
        simp at h
      | none =>
        simp only [hfe, Prod.mk.injEq, Option.some.injEq] at h
        obtain ⟨hc, hrws, -⟩ := h
        subst hc
        subst hrws
        refine ⟨fun r hr => scanRows_ok_keys _ _ _ hsr r hr, ?_, ?_⟩
        · intro r hr k hk
          rw [scanRows_ok_keys _ _ _ hsr r hr] at hk
          exact mem_dedupKeys _ k hk
        · intro r1 hr1 r2 hr2
          rw [scanRows_ok_keys _ _ _ hsr r1 hr1, scanRows_ok_keys _ _ _ hsr r2 hr2]

/-- Witness for C9: a concrete two-row execution whose rows both carry
exactly the key `id`. -/
theorem c9_resultSet_invariant_witness :
    executeQuery (.ok sampleOkRows) =
      (some ["id".data],
        some [[("id".data, GoVal.vint 1)], [("id".data, GoVal.vint 2)]], none) ∧
    (∀ r ∈ [[("id".data, GoVal.vint 1)], [("id".data, GoVal.vint 2)]],
      r.map Prod.fst = dedupKeys ["id".data]) :=
  ⟨by decide,
   (c9_resultSet_invariant sampleOkRows ["id".data]
     [[("id".data, GoVal.vint 1)], [("id".data, GoVal.vint 2)]] (by decide)).1⟩

/-! Schema introspection stops at the table cap. -/

theorem sqliteLoop_cons
    (lookup : List Char → Except GoErr (List (List Char) × List (List Char)))
    (maxT : Int) (nm : List Char) (rest : List (List Char)) (acc : List tableDef) :
    introspectSQLiteLoop lookup maxT (nm :: rest) acc =
      match lookup nm with
      | .error e => ([nm], .error e)
      | .ok cols =>
        let acc' := acc ++ [⟨nm, mkSQLiteColumns cols.1 cols.2⟩]
        if maxT ≤ (acc'.length : Int) then ([nm], .ok acc')
        else
          let r := introspectSQLiteLoop lookup maxT rest acc'
          (nm :: r.1, r.2) := rfl

theorem sqliteLoop_spec
    (lookup : List Char → Except GoErr (List (List Char) × List (List Char)))
    (maxT : Int) :
    ∀ (names : List (List Char)) (acc : List tableDef),
      (acc.length : Int) < maxT →
      (introspectSQLiteLoop lookup maxT names acc).1 <+:
        names.take (maxT.toNat - acc.length) ∧
      (∀ out, (introspectSQLiteLoop lookup maxT names acc).2 = .ok out →
        (out.length : Int) ≤ maxT) := by
  intro names
  induction names with
  | nil =>
    intro acc hacc
    refine ⟨List.nil_prefix, ?_⟩
    intro out hout
    have heq : acc = out := Except.ok.inj hout
    subst heq
    omega
  | cons nm rest ih =>
    intro acc hacc
    obtain ⟨k', hk'⟩ : ∃ k', maxT.toNat - acc.length = k' + 1 :=
      ⟨maxT.toNat - acc.length - 1, by omega⟩
    cases hlk : lookup nm with
    | error e =>
      have hv : introspectSQLiteLoop lookup maxT (nm :: rest) acc = ([nm], .error e) := by
        rw [sqliteLoop_cons, hlk]
      rw [hv]
      constructor
      · rw [hk', List.take_succ_cons]
        exact ⟨List.take k' rest, rfl⟩
      · intro out hout
        exact absurd hout (by simp)
    | ok cols =>
      by_cases hbreak : maxT ≤ ((acc ++ [(⟨nm, mkSQLiteColumns cols.1 cols.2⟩ : tableDef)]).length : Int)
      · have hv : introspectSQLiteLoop lookup maxT (nm :: rest) acc =
            ([nm], .ok (acc ++ [⟨nm, mkSQLiteColumns cols.1 cols.2⟩])) := by
          rw [sqliteLoop_cons, hlk]
          dsimp only
          rw [if_pos hbreak]
        rw [hv]
        constructor
        · rw [hk', List.take_succ_cons]
          exact ⟨List.take k' rest, rfl⟩
        · intro out hout
          have heq : acc ++ [⟨nm, mkSQLiteColumns cols.1 cols.2⟩] = out := Except.ok.inj hout
          subst heq
          simp only [List.length_append, List.length_singleton]
          omega
      · have hacc' : ((acc ++ [(⟨nm, mkSQLiteColumns cols.1 cols.2⟩ : tableDef)]).length : Int) < maxT := by
          omega
        obtain ⟨ihp, ihr⟩ := ih (acc ++ [⟨nm, mkSQLiteColumns cols.1 cols.2⟩]) hacc'
        have hv : introspectSQLiteLoop lookup maxT (nm :: rest) acc =
            (nm :: (introspectSQLiteLoop lookup maxT rest
                (acc ++ [⟨nm, mkSQLiteColumns cols.1 cols.2⟩])).1,
             (introspectSQLiteLoop lookup maxT rest
                (acc ++ [⟨nm, mkSQLiteColumns cols.1 cols.2⟩])).2) := by
          rw [sqliteLoop_cons, hlk]
          dsimp only
          rw [if_neg hbreak]
        rw [hv]
        constructor
        · rw [hk', List.take_succ_cons, List.cons_prefix_cons]
          refine ⟨rfl, ?_⟩
          have harith : maxT.toNat -
              (acc ++ [(⟨nm, mkSQLiteColumns cols.1 cols.2⟩ : tableDef)]).length = k' := by
            simp only [List.length_append, List.length_singleton]
            omega
          rw [← harith]
          exact ihp
        · exact ihr

theorem pgLoop_cons
    (lookup : List Char × List Char → Except GoErr (List (List Char × List Char)))
    (filter : List (List Char)) (maxT : Int) (st : List Char × List Char)
    (rest : List (List Char × List Char)) (acc : List tableDef) :
    introspectPostgresLoop lookup filter maxT (st :: rest) acc =
      (if !allowTableName (st.1 ++ '.' :: st.2) filter then
        introspectPostgresLoop lookup filter maxT rest acc
      else
        match lookup st with
        | .error e => ([st.1 ++ '.' :: st.2], .error e)
        | .ok pairs =>
          let acc' := acc ++ [⟨st.1 ++ '.' :: st.2, mkColumnsFromPairs pairs⟩]
          if maxT ≤ (acc'.length : Int) then ([st.1 ++ '.' :: st.2], .ok acc')
          else
            let r := introspectPostgresLoop lookup filter maxT rest acc'
            ((st.1 ++ '.' :: st.2) :: r.1, r.2)) := rfl

theorem pgLoop_spec
    (lookup : List Char × List Char → Except GoErr (List (List Char × List Char)))
    (filter : List (List Char)) (maxT : Int) :
    ∀ (names : List (List Char × List Char)) (acc : List tableDef),
      (acc.length : Int) < maxT →
      (introspectPostgresLoop lookup filter maxT names acc).1 <+:
        ((names.map fun st => st.1 ++ '.' :: st.2).filter
          (fun nm => allowTableName nm filter)).take (maxT.toNat - acc.length) ∧
      (∀ out, (introspectPostgresLoop lookup filter maxT names acc).2 = .ok out →
        (out.length : Int) ≤ maxT) := by
  intro names
  induction names with
  | nil =>
    intro acc hacc
    refine ⟨List.nil_prefix, ?_⟩
    intro out hout
    have heq : acc = out := Except.ok.inj hout
    subst heq
    omega
  | cons st rest ih =>
    intro acc hacc
    obtain ⟨k', hk'⟩ : ∃ k', maxT.toNat - acc.length = k' + 1 :=
      ⟨maxT.toNat - acc.length - 1, by omega⟩
    rw [List.map_cons, List.filter_cons]
    by_cases hallow : allowTableName (st.1 ++ '.' :: st.2) filter = true
    · rw [if_pos hallow]
      cases hlk : lookup st with
      | error e =>
        have hv : introspectPostgresLoop lookup filter maxT (st :: rest) acc =
            ([st.1 ++ '.' :: st.2], .error e) := by
          rw [pgLoop_cons, hallow]
          dsimp only [Bool.not_true]
          rw [if_neg (by simp), hlk]
        rw [hv]
        constructor
        · rw [hk', List.take_succ_cons]
          exact ⟨_, rfl⟩
        · intro out hout
          exact absurd hout (by simp)
      | ok pairs =>
        by_cases hbreak : maxT ≤
            ((acc ++ [(⟨st.1 ++ '.' :: st.2, mkColumnsFromPairs pairs⟩ : tableDef)]).length : Int)
        · have hv : introspectPostgresLoop lookup filter maxT (st :: rest) acc =
              ([st.1 ++ '.' :: st.2],
                .ok (acc ++ [⟨st.1 ++ '.' :: st.2, mkColumnsFromPairs pairs⟩])) := by
            rw [pgLoop_cons, hallow]
            dsimp only [Bool.not_true]
            rw [if_neg (by simp), hlk]
            dsimp only
            rw [if_pos hbreak]
          rw [hv]
          constructor
          · rw [hk', List.take_succ_cons]
            exact ⟨_, rfl⟩
          · intro out hout
            have heq : acc ++ [⟨st.1 ++ '.' :: st.2, mkColumnsFromPairs pairs⟩] = out :=
              Except.ok.inj hout
            subst heq
            simp only [List.length_append, List.length_singleton]
            omega
        · have hacc' :
              ((acc ++ [(⟨st.1 ++ '.' :: st.2, mkColumnsFromPairs pairs⟩ : tableDef)]).length : Int) < maxT := by
            omega
          obtain ⟨ihp, ihr⟩ := ih (acc ++ [⟨st.1 ++ '.' :: st.2, mkColumnsFromPairs pairs⟩]) hacc'
          have hv : introspectPostgresLoop lookup filter maxT (st :: rest) acc =
              ((st.1 ++ '.' :: st.2) :: (introspectPostgresLoop lookup filter maxT rest
                  (acc ++ [⟨st.1 ++ '.' :: st.2, mkColumnsFromPairs pairs⟩])).1,
               (introspectPostgresLoop lookup filter maxT rest
                  (acc ++ [⟨st.1 ++ '.' :: st.2, mkColumnsFromPairs pairs⟩])).2) := by
            rw [pgLoop_cons, hallow]
            dsimp only [Bool.not_true]
            rw [if_neg (by simp), hlk]
            dsimp only
            rw [if_neg hbreak]
          rw [hv]
          constructor
          · rw [hk', List.take_succ_cons, List.cons_prefix_cons]
            refine ⟨rfl, ?_⟩
            have harith : maxT.toNat -
                (acc ++ [(⟨st.1 ++ '.' :: st.2, mkColumnsFromPairs pairs⟩ : tableDef)]).length = k' := by
              simp only [List.length_append, List.length_singleton]
              omega
            rw [← harith]
            exact ihp
          · exact ihr
    · have hallow' : allowTableName (st.1 ++ '.' :: st.2) filter = false :=
        bool_eq_false_of_not_true hallow
      rw [if_neg (by simp [hallow'])]
      have hv : introspectPostgresLoop lookup filter maxT (st :: rest) acc =
          introspectPostgresLoop lookup filter maxT rest acc := by
        rw [pgLoop_cons, hallow']
        rw [if_pos (show (!false) = true from rfl)]
      rw [hv]
      exact ih acc hacc

theorem mysqlLoop_cons
    (lookup : List Char → Except GoErr (List (List Char × List Char)))
    (filter : List (List Char)) (maxT : Int) (nm : List Char)
    (rest : List (List Char)) (acc : List tableDef) :
    introspectMySQLLoop lookup filter maxT (nm :: rest) acc =
      (if !allowTableName nm filter then
        introspectMySQLLoop lookup filter maxT rest acc
      else
        match lookup nm with
        | .error e => ([nm], .error e)
        | .ok pairs =>
          let acc' := acc ++ [⟨nm, mkColumnsFromPairs pairs⟩]
          if maxT ≤ (acc'.length : Int) then ([nm], .ok acc')
          else
            let r := introspectMySQLLoop lookup filter maxT rest acc'
            (nm :: r.1, r.2)) := rfl

theorem mysqlLoop_spec
    (lookup : List Char → Except GoErr (List (List Char × List Char)))
    (filter : List (List Char)) (maxT : Int) :
    ∀ (names : List (List Char)) (acc : List tableDef),
      (acc.length : Int) < maxT →
      (introspectMySQLLoop lookup filter maxT names acc).1 <+:
        (names.filter (fun nm => allowTableName nm filter)).take
          (maxT.toNat - acc.length) ∧
      (∀ out, (introspectMySQLLoop lookup filter maxT names acc).2 = .ok out →
        (out.length : Int) ≤ maxT) := by
  intro names
  induction names with
  | nil =>
    intro acc hacc
    refine ⟨List.nil_prefix, ?_⟩
    intro out hout
    have heq : acc = out := Except.ok.inj hout
    subst heq
    omega
  | cons nm rest ih =>
    intro acc hacc
    obtain ⟨k', hk'⟩ : ∃ k', maxT.toNat - acc.length = k' + 1 :=
      ⟨maxT.toNat - acc.length - 1, by omega⟩
    rw [List.filter_cons]
    by_cases hallow : allowTableName nm filter = true
    · rw [if_pos hallow]
      cases hlk : lookup nm with
      | error e =>
        have hv : introspectMySQLLoop lookup filter maxT (nm :: rest) acc =
            ([nm], .error e) := by
          rw [mysqlLoop_cons, hallow]
          dsimp only [Bool.not_true]
          rw [if_neg (by simp), hlk]
        rw [hv]
        constructor
        · rw [hk', List.take_succ_cons]
          exact ⟨_, rfl⟩
        · intro out hout
          exact absurd hout (by simp)
      | ok pairs =>
        by_cases hbreak : maxT ≤ ((acc ++ [(⟨nm, mkColumnsFromPairs pairs⟩ : tableDef)]).length : Int)
        · have hv : introspectMySQLLoop lookup filter maxT (nm :: rest) acc =
              ([nm], .ok (acc ++ [⟨nm, mkColumnsFromPairs pairs⟩])) := by
            rw [mysqlLoop_cons, hallow]
            dsimp only [Bool.not_true]
            rw [if_neg (by simp), hlk]
            dsimp only
            rw [if_pos hbreak]
          rw [hv]
          constructor
          · rw [hk', List.take_succ_cons]
            exact ⟨_, rfl⟩
          · intro out hout
            have heq : acc ++ [⟨nm, mkColumnsFromPairs pairs⟩] = out := Except.ok.inj hout
            subst heq
            simp only [List.length_append, List.length_singleton]
            omega
        · have hacc' : ((acc ++ [(⟨nm, mkColumnsFromPairs pairs⟩ : tableDef)]).length : Int) < maxT := by
            omega
          obtain ⟨ihp, ihr⟩ := ih (acc ++ [⟨nm, mkColumnsFromPairs pairs⟩]) hacc'
          have hv : introspectMySQLLoop lookup filter maxT (nm :: rest) acc =
              (nm :: (introspectMySQLLoop lookup filter maxT rest
                  (acc ++ [⟨nm, mkColumnsFromPairs pairs⟩])).1,
               (introspectMySQLLoop lookup filter maxT rest
                  (acc ++ [⟨nm, mkColumnsFromPairs pairs⟩])).2) := by
            rw [mysqlLoop_cons, hallow]
            dsimp only [Bool.not_true]
            rw [if_neg (by simp), hlk]
            dsimp only
            rw [if_neg hbreak]
          rw [hv]
          constructor
          · rw [hk', List.take_succ_cons, List.cons_prefix_cons]
            refine ⟨rfl, ?_⟩
            have harith : maxT.toNat - (acc ++ [(⟨nm, mkColumnsFromPairs pairs⟩ : tableDef)]).length = k' := by
              simp only [List.length_append, List.length_singleton]
              omega
            rw [← harith]
            exact ihp
          · exact ihr
    · have hallow' : allowTableName nm filter = false := bool_eq_false_of_not_true hallow
      rw [if_neg (by simp [hallow'])]
      have hv : introspectMySQLLoop lookup filter maxT (nm :: rest) acc =
          introspectMySQLLoop lookup filter maxT rest acc := by
        rw [mysqlLoop_cons, hallow']
        rw [if_pos (show (!false) = true from rfl)]
      rw [hv]
      exact ih acc hacc

/-- Claim C6: for each dialect with a positive table cap, the probed
tables form a prefix of the first `maxTables` filtered candidates (so no
column lookup is issued for any remaining candidate once the cap is
reached) and a successful introspection returns at most `maxTables`
descriptors. -/
theorem c6_introspection_caps_and_stops (maxT : Int) (hm : 1 ≤ maxT) :
    (∀ (catalog filter : List (List Char))
        (lookup : List Char → Except GoErr (List (List Char) × List (List Char))),
      (introspectSQLite catalog filter maxT lookup).1 <+:
        (catalog.filter fun nm => allowTableName nm filter).take maxT.toNat ∧
      (∀ out, (introspectSQLite catalog filter maxT lookup).2 = .ok out →
        (out.length : Int) ≤ maxT)) ∧
    (∀ (catalog : List (List Char × List Char)) (filter : List (List Char))
        (lookup : List Char × List Char → Except GoErr (List (List Char × List Char))),
      (introspectPostgres catalog filter maxT lookup).1 <+:
        ((catalog.map fun st => st.1 ++ '.' :: st.2).filter
          fun nm => allowTableName nm filter).take maxT.toNat ∧
      (∀ out, (introspectPostgres catalog filter maxT lookup).2 = .ok out →
        (out.length : Int) ≤ maxT)) ∧
    (∀ (catalog filter : List (List Char))
        (lookup : List Char → Except GoErr (List (List Char × List Char))),
      (introspectMySQL catalog filter maxT lookup).1 <+:
        (catalog.filter fun nm => allowTableName nm filter).take maxT.toNat ∧
      (∀ out, (introspectMySQL catalog filter maxT lookup).2 = .ok out →
        (out.length : Int) ≤ maxT)) := by
  refine ⟨?_, ?_, ?_⟩
  · intro catalog filter lookup
    have h := sqliteLoop_spec lookup maxT
      (catalog.filter fun nm => allowTableName nm filter) [] (by simpa using hm)
    simpa [introspectSQLite] using h
  · intro catalog filter lookup
    have h := pgLoop_spec lookup filter maxT catalog [] (by simpa using hm)
    simpa [introspectPostgres] using h
  · intro catalog filter lookup
    have h := mysqlLoop_spec lookup filter maxT catalog [] (by simpa using hm)
    simpa [introspectMySQL] using h

/-- Witness for C6: with `maxTables = 1` and a two-table catalog, sqlite
introspection probes only the first table and returns exactly one
descriptor. -/
theorem c6_introspection_caps_and_stops_witness :
    introspectSQLite ["a".data, "b".data] [] 1
        (fun _ => .ok (["id".data], ["INT".data])) =
      (["a".data], .ok [⟨"a".data, ["id INT".data]⟩]) ∧
    (introspectSQLite ["a".data, "b".data] [] 1
        (fun _ => .ok (["id".data], ["INT".data]))).1 <+:
      ((["a".data, "b".data] : List (List Char)).filter
        fun nm => allowTableName nm []).take (1 : Int).toNat :=
  ⟨by decide,
   ((c6_introspection_caps_and_stops 1 (by decide)).1 ["a".data, "b".data] []
     (fun _ => .ok (["id".data], ["INT".data]))).1⟩

/-! Tabular rendering. -/

theorem if_empty_id (s : List Char) : (if s = [] then [] else s) = s := by
  by_cases h : s = []
  · rw [if_pos h, h]
  · rw [if_neg h]

theorem getD_map_of_lt {α β : Type} (f : α → β) (l : List α) (i : Nat)
    (hi : i < l.length) (d : α) (d' : β) :
    (l.map f).getD i d' = f (l.getD i d) := by
  rw [List.getD_eq_getElem?_getD, List.getD_eq_getElem?_getD, List.getElem?_map,
    List.getElem?_eq_getElem hi]
  rfl

theorem getD_zipWith_max (a b : List Nat) (i : Nat) (ha : i < a.length)
    (hb : i < b.length) :
    (List.zipWith max a b).getD i 0 = max (a.getD i 0) (b.getD i 0) := by
  rw [List.getD_eq_getElem?_getD, List.getD_eq_getElem?_getD,
    List.getD_eq_getElem?_getD, List.getElem?_zipWith,
    List.getElem?_eq_getElem ha, List.getElem?_eq_getElem hb]
  rfl

theorem cellLine_length (cols : List (List Char)) (row : List (List Char × GoVal)) :
    (cellLine cols row).length = cols.length := by
  simp [cellLine]

theorem widthsFold_spec (cols : List (List Char)) (i : Nat) (hi : i < cols.length) :
    ∀ (rows : List (List (List Char × GoVal)))
      (acc : List (List (List Char)) × List Nat), acc.2.length = cols.length →
      (acc.2.getD i 0 ≤ (rows.foldl (widthsFoldF cols) acc).2.getD i 0) ∧
      (∀ r ∈ rows, (formatCellValue (lookupCell r (cols.getD i []))).length ≤
        (rows.foldl (widthsFoldF cols) acc).2.getD i 0) ∧
      ((rows.foldl (widthsFoldF cols) acc).2.getD i 0 = acc.2.getD i 0 ∨
       ∃ r ∈ rows, (rows.foldl (widthsFoldF cols) acc).2.getD i 0 =
         (formatCellValue (lookupCell r (cols.getD i []))).length) := by
  intro rows
  induction rows with
  | nil =>
    intro acc hlen
    exact ⟨le_refl _, by simp, Or.inl rfl⟩
  | cons r rest ih =>
    intro acc hlen
    rw [List.foldl_cons]
    have hlen' : (widthsFoldF cols acc r).2.length = cols.length := by
      show (List.zipWith max acc.2 ((cellLine cols r).map List.length)).length = _
      rw [List.length_zipWith, hlen, List.length_map, cellLine_length]
      exact min_self _
    obtain ⟨ih1, ih2, ih3⟩ := ih (widthsFoldF cols acc r) hlen'
    have hstep : (widthsFoldF cols acc r).2.getD i 0 =
        max (acc.2.getD i 0)
          ((formatCellValue (lookupCell r (cols.getD i []))).length) := by
      show (List.zipWith max acc.2 ((cellLine cols r).map List.length)).getD i 0 = _
      rw [getD_zipWith_max _ _ i (by rw [hlen]; exact hi)
        (by rw [List.length_map, cellLine_length]; exact hi)]
      congr 1
      rw [getD_map_of_lt List.length (cellLine cols r) i
        (by rw [cellLine_length]; exact hi) []]
      show ((cols.map fun c => formatCellValue (lookupCell r c)).getD i []).length = _
      rw [getD_map_of_lt _ cols i hi []]
    refine ⟨?_, ?_, ?_⟩
    · calc acc.2.getD i 0 ≤ (widthsFoldF cols acc r).2.getD i 0 := by
            rw [hstep]
            exact le_max_left _ _
        _ ≤ _ := ih1
    · intro r' hr'
      rcases List.mem_cons.mp hr' with rfl | hr''
      · calc (formatCellValue (lookupCell r' (cols.getD i []))).length ≤
              (widthsFoldF cols acc r').2.getD i 0 := by
              rw [hstep]
              exact le_max_right _ _
          _ ≤ _ := ih1
      · exact ih2 r' hr''
    · rcases ih3 with h | ⟨r', hr', h⟩
      · rw [h, hstep]
        rcases max_choice (acc.2.getD i 0)
            ((formatCellValue (lookupCell r (cols.getD i []))).length) with he | he
        · exact Or.inl he
        · exact Or.inr ⟨r, List.mem_cons_self _ _, he⟩
      · exact Or.inr ⟨r', List.mem_cons_of_mem _ hr', h⟩

/-- Claim C8: zero columns render as the one-line no-rows message; `nil`
cells render as `NULL`; the empty string renders as zero width; every
other value renders as its default string form with newlines and carriage
returns flattened; each column's width is the maximum of its header width
and all its cells' rendered widths; zero rows with nonempty columns
render the bordered header frame followed by the `(0 rows)` footer. -/
theorem c8_renderTable_spec :
    (∀ rows, renderTable [] rows = "No rows returned.".data) ∧
    formatCellValue .vnull = "NULL".data ∧
    formatCellValue (.vstr []) = [] ∧
    (∀ v : GoVal, v ≠ .vnull → formatCellValue v = replaceNLCR (goFormatValue v)) ∧
    (∀ (cols : List (List Char)) (rows : List (List (List Char × GoVal))) (i : Nat),
      i < cols.length →
      ((cols.getD i []).length ≤ (rowsAndWidths cols rows).2.getD i 0 ∧
       (∀ r ∈ rows, (formatCellValue (lookupCell r (cols.getD i []))).length ≤
         (rowsAndWidths cols rows).2.getD i 0) ∧
       ((rowsAndWidths cols rows).2.getD i 0 = (cols.getD i []).length ∨
        ∃ r ∈ rows, (rowsAndWidths cols rows).2.getD i 0 =
          (formatCellValue (lookupCell r (cols.getD i []))).length))) ∧
    (∀ cols : List (List Char), cols ≠ [] →
      renderTable cols [] =
        buildHorizontalLine (cols.map List.length) ++ '\n' ::
          buildTableRow cols (cols.map List.length) ++ '\n' ::
          buildHorizontalLine (cols.map List.length) ++ '\n' ::
          buildHorizontalLine (cols.map List.length) ++ "\n(0 rows)".data) := by
  refine ⟨fun rows => rfl, rfl, rfl, ?_, ?_, ?_⟩
  · intro v hv
    cases v with
    | vnull => exact absurd rfl hv
    | vtime t => exact if_empty_id _
    | vbytes s =>
      show (if replaceNLCR (goFormatValue (GoVal.vbytes s)) = [] then []
            else replaceNLCR (goFormatValue (GoVal.vbytes s))) = _
      exact if_empty_id _
    | vint i => exact if_empty_id _
    | vfloat f => exact if_empty_id _
    | vbool b => exact if_empty_id _
    | vstr s => exact if_empty_id _
  · intro cols rows i hi
    have h := widthsFold_spec cols i hi rows ([], cols.map List.length) (by simp)
    have hbase :
        (([], cols.map List.length) :
          List (List (List Char)) × List Nat).2.getD i 0 =
          (cols.getD i []).length := by
      show (cols.map List.length).getD i 0 = _
      rw [getD_map_of_lt List.length cols i hi []]
    rw [show rowsAndWidths cols rows =
      rows.foldl (widthsFoldF cols) ([], cols.map List.length) from rfl]
    obtain ⟨h1, h2, h3⟩ := h
    rw [hbase] at h1 h3
    exact ⟨h1, h2, h3⟩
  · intro cols hc
    unfold renderTable
    rw [if_neg (by simpa using hc)]
    rw [show rowsAndWidths cols [] = ([], cols.map List.length) from rfl]
    simp only [List.map_nil, List.flatten_nil, List.nil_append, List.length_nil,
      List.append_assoc]
    rfl

/-- Witness for C8: concrete one-column instances of the
hypothesis-bearing parts, plus the fully evaluated zero-row frame. -/
theorem c8_renderTable_spec_witness :
    formatCellValue (.vstr ['x']) = replaceNLCR (goFormatValue (.vstr ['x'])) ∧
    ((["id".data] : List (List Char)).getD 0 []).length ≤
      (rowsAndWidths ["id".data] [[("id".data, GoVal.vint 100)]]).2.getD 0 0 ∧
    renderTable ["id".data] [] =
      buildHorizontalLine ((["id".data] : List (List Char)).map List.length) ++ '\n' ::
        buildTableRow ["id".data] ((["id".data] : List (List Char)).map List.length) ++ '\n' ::
        buildHorizontalLine ((["id".data] : List (List Char)).map List.length) ++ '\n' ::
        buildHorizontalLine ((["id".data] : List (List Char)).map List.length) ++
        "\n(0 rows)".data ∧
    renderTable ["id".data] [] = "+----+\n| id |\n+----+\n+----+\n(0 rows)".data :=
  ⟨c8_renderTable_spec.2.2.2.1 _ (by decide),
   (c8_renderTable_spec.2.2.2.2.1 ["id".data] [[("id".data, GoVal.vint 100)]] 0
     (by decide)).1,
   c8_renderTable_spec.2.2.2.2.2 ["id".data] (by decide),
   by decide⟩

end DBQuery
